import Mathlib

/-!
# Verification of the silver-tracker ingestion pipeline and derived metrics

This file is a shallow embedding of the data engine of `app.py`: the
`process_csv` ingestion routine (header cleaning, column-role resolution,
currency cleaning, date coercion, row filtering, sorting), the sidebar upload
handler, the manual-entry append path, the CSV export / re-ingestion round
trip, and the derived metrics used by the dashboard (`pct_change`, rolling
mean, sample standard deviation).

Conventions of the embedding:

* Text is `String`; all manipulation is done through hand-rolled structural
  functions over `String.data` so every definition evaluates in the kernel.
* A pandas `DataFrame` is a list of column names, a list of column dtypes and
  a list of rows of cells (`Df` below).  Machine floats are modelled as `ℚ`,
  with the IEEE special values (`inf`, `-inf`, `NaN`) tracked explicitly by
  `FVal` where the code can produce them.  `NaN`/`NaT` missing cells are the
  `Cell.naC` constructor.
* `pd.to_numeric(errors := coerce)` is modelled on fixed-notation decimal
  numerals (optional sign, digits, optional fractional part); scientific
  notation is outside the modelled fragment and treated as unparseable.
* `pd.to_datetime(errors := coerce)` is modelled on ISO `YYYY-MM-DD` inputs,
  mapped to the integer code `y * 10000 + m * 100 + d` (order-isomorphic to
  chronological order on the modelled fragment); other spellings are treated
  as unparseable.
* `sort_values` is given two semantics: `SortValuesR`, the contract pandas
  documents for the default `quicksort` kind (a permutation of the rows that
  is non-decreasing in the key, rows with a missing key moved to the end in
  source order, tie order unspecified), used for universally quantified
  statements; and `npArgsort`, a step-faithful translation of numpy's
  introsort-based `aquicksort` (the algorithm actually reached by
  `sort_values(kind := quicksort)` on a datetime column), used to compute the
  concrete tie behaviour.
-/

namespace SilverTracker

attribute [local semireducible] Rat.add Rat.mul Rat.inv Rat.sub

/-! ## Python string primitives, modelled over `List Char` -/

/-- The whitespace recognised by Python's `str.strip`. -/
def isSpaceChar (c : Char) : Bool :=
  c = ' ' || c = '\t' || c = '\n' || c = '\r' || c = '\x0b' || c = '\x0c'

/-- `str.strip()` on a character list: drop whitespace from both ends. -/
def stripChars (s : List Char) : List Char :=
  ((s.dropWhile isSpaceChar).reverse.dropWhile isSpaceChar).reverse

/-- `str.strip()` on a `String`.  Models the header cleaning
`str(c).strip()` and the final `.str.strip()` of the price cleaning. -/
def strStrip (s : String) : String := ⟨stripChars s.data⟩

/-- `str.replace(t, "")` restricted to a single-character pattern: removes
every occurrence of `t`.  The source only ever replaces the one-character
patterns `₹` and `,` by the empty string. -/
def removeChar (t : Char) : List Char → List Char
  | [] => []
  | c :: cs => if c = t then removeChar t cs else c :: removeChar t cs

/-- Does `hay` start with `needle`? -/
def startsW : List Char → List Char → Bool
  | [], _ => true
  | _ :: _, [] => false
  | a :: as, b :: bs => a = b && startsW as bs

/-- Contiguous-substring test on character lists. -/
def subIn (needle : List Char) : List Char → Bool
  | [] => startsW needle []
  | c :: t => startsW needle (c :: t) || subIn needle t

/-- Python's `needle in hay` on strings (contiguous substring). -/
def strIn (needle hay : String) : Bool := subIn needle.data hay.data

/-! ## Decimal numerals: the modelled fragment of `pd.to_numeric` -/

/-- Is the character one of `0`-`9` (codepoints 48-57)? -/
def isDigitChar (c : Char) : Bool := 48 ≤ c.toNat && c.toNat ≤ 57

def digitVal (c : Char) : ℕ := c.toNat - '0'.toNat

/-- Value of a most-significant-digit-first digit string. -/
def digitsToNat (l : List Char) : ℕ :=
  l.foldl (fun a c => 10 * a + digitVal c) 0

/-- Split a character list at the first `.`, keeping the two sides. -/
def splitAtDot : List Char → List Char × Option (List Char)
  | [] => ([], none)
  | c :: cs =>
    if c = '.' then ([], some cs)
    else (c :: (splitAtDot cs).1, (splitAtDot cs).2)

/-- Unsigned fixed-notation decimal numeral: `digits`, `digits.digits`,
`digits.` or `.digits`, with at least one digit overall. -/
def parseUnsignedDec (l : List Char) : Option ℚ :=
  match splitAtDot l with
  | (ip, none) =>
    if ip ≠ [] && ip.all isDigitChar then some (digitsToNat ip) else none
  | (ip, some fp) =>
    if (ip ≠ [] || fp ≠ []) && ip.all isDigitChar && fp.all isDigitChar then
      some ((digitsToNat ip : ℚ) + (digitsToNat fp : ℚ) / (10 : ℚ) ^ fp.length)
    else none

/-- `pd.to_numeric(errors := coerce)` on one cell, restricted to
fixed-notation decimals with an optional leading sign (see the module
docstring for the modelled fragment). -/
def toNumericChars (l : List Char) : Option ℚ :=
  match l with
  | [] => parseUnsignedDec []
  | c :: rest =>
    if c = '-' then (parseUnsignedDec rest).map (fun q => -q)
    else if c = '+' then parseUnsignedDec rest
    else parseUnsignedDec (c :: rest)

def toNumeric (s : String) : Option ℚ := toNumericChars s.data

/-! ## Calendar dates: the modelled fragment of `pd.to_datetime` -/

/-- Split a character list on `-` separators. -/
def splitDash : List Char → List (List Char)
  | [] => [[]]
  | c :: cs =>
    if c = '-' then [] :: splitDash cs
    else
      match splitDash cs with
      | [] => [[c]]
      | h :: t => (c :: h) :: t

/-- Integer code of a calendar date, order-isomorphic to chronology. -/
def dateCode (y m d : ℕ) : ℤ := (y : ℤ) * 10000 + (m : ℤ) * 100 + (d : ℤ)

/-- `pd.to_datetime(errors := coerce)` on one cell, restricted to ISO
`YYYY-MM-DD` spellings (surrounding whitespace tolerated; month in `1..12`,
day in `1..31`; finer day-in-month validation is outside the model). -/
def parseDateChars (l : List Char) : Option ℤ :=
  match splitDash (stripChars l) with
  | [ys, ms, ds] =>
    if ys.length = 4 && ms.length = 2 && ds.length = 2 &&
        ys.all isDigitChar && ms.all isDigitChar && ds.all isDigitChar &&
        1 ≤ digitsToNat ys &&
        1 ≤ digitsToNat ms && digitsToNat ms ≤ 12 &&
        1 ≤ digitsToNat ds && digitsToNat ds ≤ 31 then
      some (dateCode (digitsToNat ys) (digitsToNat ms) (digitsToNat ds))
    else none
  | _ => none

def parseDate (s : String) : Option ℤ := parseDateChars s.data

/-! ## The DataFrame model -/

/-- One pandas cell.  `naC` is the missing value (`NaN` for numeric and
object columns, `NaT` for datetime columns). -/
inductive Cell
  | sC (s : String)
  | nC (q : ℚ)
  | dC (t : ℤ)
  | naC
  deriving DecidableEq, Repr

/-- Column dtype: `object`, numeric (`int64`/`float64`, both `ℚ` here), or
`datetime64`. -/
inductive Dtype
  | objT
  | numT
  | dateT
  deriving DecidableEq, Repr

/-- A pandas DataFrame: ordered column names, their dtypes, and the rows.
The row index is not part of the model (the spec's `NormalizedTable` is an
ordered sequence of records). -/
structure Df where
  names : List String
  dtypes : List Dtype
  rows : List (List Cell)
  deriving DecidableEq, Repr

/-- First index satisfying a predicate.  Models the Python idiom
`[c for c in xs if p c][0]`, which raises `IndexError` when no element
matches (`none` here). -/
def firstIdx (p : α → Bool) : List α → Option ℕ
  | [] => none
  | a :: as => if p a then some 0 else (firstIdx p as).map (· + 1)

/-- Replace the element at an index, when it exists. -/
def modifyAt (f : α → α) : ℕ → List α → List α
  | _, [] => []
  | 0, a :: as => f a :: as
  | n + 1, a :: as => a :: modifyAt f n as

/-! ## `process_csv` (app.py lines 57-77) -/

/-- `df.columns = [str(c).strip() for c in df.columns]`. -/
def stripNames (df : Df) : Df := { df with names := df.names.map strStrip }

/-- The header test of line 64: `'Price' in c or 'price' in c`.  A
case-sensitive contiguous substring test against the two literal
spellings. -/
def pricePred (c : String) : Bool := strIn "Price" c || strIn "price" c

/-- The header test of line 70: `'Date' in c or 'date' in c`. -/
def datePred (c : String) : Bool := strIn "Date" c || strIn "date" c

/-- `[c for c in df.columns if 'Price' in c or 'price' in c][0]`, as the
index of the resolved column.  `df[name]` is modelled by positional access
to the first column bearing the name, which coincides with this index (the
model assumes, as the app does, no duplicate headers). -/
def priceColIdx (names : List String) : Option ℕ :=
  firstIdx pricePred names

/-- `[c for c in df.columns if 'Date' in c or 'date' in c][0]`. -/
def dateColIdx (names : List String) : Option ℕ :=
  firstIdx datePred names

/-- `.astype(str).str.replace('₹', '').str.replace(',', '').str.strip()`
on one cell value. -/
def cleanPriceStr (s : String) : String :=
  strStrip ⟨removeChar ',' (removeChar '₹' s.data)⟩

/-- One cell of the object-dtype price-cleaning branch: stringify, strip the
currency symbol and thousands separators, then `pd.to_numeric(errors :=
coerce)`.  A missing value stringifies to `"nan"`, which fails to parse and
is coerced back to missing, so `naC ↦ naC`; non-string cells inside an
object column stringify and re-parse to themselves on the modelled fragment
and are kept unchanged. -/
def cleanPriceCell : Cell → Cell
  | .sC s =>
    match toNumeric (cleanPriceStr s) with
    | some q => .nC q
    | none => .naC
  | c => c

/-- Lines 65-67: the cleaning branch runs only when
`df[price_col].dtype == 'object'`; it rewrites the column in place and its
dtype becomes numeric. -/
def cleanPriceCol (df : Df) (j : ℕ) : Df :=
  if df.dtypes.getD j .objT = .objT then
    { df with
      rows := df.rows.map (modifyAt cleanPriceCell j)
      dtypes := df.dtypes.set j .numT }
  else df

/-- `pd.to_datetime(df[date_col], errors := coerce)` on one cell.  String
cells go through the modelled ISO parser; an already-datetime cell is kept;
the numeric-epoch interpretation pandas applies to numeric cells is outside
the modelled fragment and is mapped to `NaT`. -/
def toDatetimeCell : Cell → Cell
  | .sC s =>
    match parseDate s with
    | some t => .dC t
    | none => .naC
  | .dC t => .dC t
  | _ => .naC

/-- Line 71: rewrite the date column through `pd.to_datetime`; its dtype
becomes `datetime64`. -/
def toDatetimeCol (df : Df) (j : ℕ) : Df :=
  { df with
    rows := df.rows.map (modifyAt toDatetimeCell j)
    dtypes := df.dtypes.set j .dateT }

/-- Is the row kept by `dropna(subset := [date_col, price_col])`? -/
def validRow (dj pj : ℕ) (r : List Cell) : Bool :=
  r.getD dj .naC ≠ .naC && r.getD pj .naC ≠ .naC

/-- `df.dropna(subset := [date_col, price_col])`. -/
def dropna (dj pj : ℕ) (df : Df) : Df :=
  { df with rows := df.rows.filter (validRow dj pj) }

/-- The body of `process_csv` up to (and excluding) the final
`sort_values`: header stripping, price-column resolution, currency cleaning,
date-column resolution, date coercion, row filtering.  An unresolved column
raises `IndexError` (the `[...][0]` idiom), which the surrounding
`try/except` catches. -/
def process_csv_prep (raw : Df) : Except String (Df × ℕ × ℕ) :=
  match priceColIdx (stripNames raw).names with
  | none => .error "IndexError: price column"
  | some pj =>
    match dateColIdx (cleanPriceCol (stripNames raw) pj).names with
    | none => .error "IndexError: date column"
    | some dj =>
      .ok (dropna dj pj (toDatetimeCol (cleanPriceCol (stripNames raw) pj) dj), dj, pj)

/-- The observable result of `process_csv` at the error boundary: the
`except Exception` handler turns any raised error into the sentinel
`(None, None, None)` (modelled as `none`).  The final `sort_values` cannot
raise, so the sentinel occurs exactly when `process_csv_prep` fails. -/
def process_csv_result (raw : Df) : Option (Df × ℕ × ℕ) :=
  (process_csv_prep raw).toOption

/-! ## `sort_values`: the documented contract -/

/-- The sort key of a row: the integer code of its date cell.  Only applied
to rows whose key cell is a date; other cells get an arbitrary key. -/
def rowKey (dj : ℕ) (r : List Cell) : ℤ :=
  match r.getD dj .naC with
  | .dC t => t
  | _ => 0

/-- Does the row have a missing sort key (`NaT`/`NaN` in the key column)?
`sort_values` moves such rows to the end (`na_position = 'last'`). -/
def naKeyRow (dj : ℕ) (r : List Cell) : Bool :=
  match r.getD dj .naC with
  | .dC _ => false
  | _ => true

/-- Rows are non-decreasing in the date key. -/
def SortedByKey (dj : ℕ) (rows : List (List Cell)) : Prop :=
  rows.Chain' (fun a b => rowKey dj a ≤ rowKey dj b)

/-- Executable check of `SortedByKey`. -/
def sortedByKeyB (dj : ℕ) : List (List Cell) → Bool
  | [] => true
  | [_] => true
  | a :: b :: rest => decide (rowKey dj a ≤ rowKey dj b) && sortedByKeyB dj (b :: rest)

theorem sortedByKeyB_iff (dj : ℕ) :
    ∀ rows, sortedByKeyB dj rows = true ↔ SortedByKey dj rows := by
  intro rows
  induction rows with
  | nil => simp [sortedByKeyB, SortedByKey]
  | cons a rest ih =>
    cases rest with
    | nil => simp [sortedByKeyB, SortedByKey]
    | cons b r2 =>
      unfold SortedByKey at ih ⊢
      rw [List.chain'_cons, ← ih]
      simp [sortedByKeyB]

instance (dj : ℕ) (rows : List (List Cell)) : Decidable (SortedByKey dj rows) :=
  decidable_of_iff _ (sortedByKeyB_iff dj rows)

/-- The contract pandas documents for `sort_values(by = key)` with the
default `kind = 'quicksort'`: the output is a permutation of the rows in
which the rows with a present key come first, non-decreasing in the key, and
the rows with a missing key follow in their source order.  The relative
order of key ties is deliberately left unspecified (quicksort is not
stable); `npArgsort` below refines this contract with numpy's concrete
algorithm. -/
def SortValuesR (dj : ℕ) (t u : List (List Cell)) : Prop :=
  ∃ v, u = v ++ t.filter (naKeyRow dj) ∧
    v.Perm (t.filter (fun r => ! naKeyRow dj r)) ∧ SortedByKey dj v

/-- `process_csv` as observed by a successful caller: the prepared table
related to the returned one by the `sort_values` contract. -/
def ProcessCsvR (raw : Df) (res : Df × ℕ × ℕ) : Prop :=
  ∃ t, process_csv_prep raw = .ok (t, res.2.1, res.2.2) ∧
    res.1.names = t.names ∧ res.1.dtypes = t.dtypes ∧
    SortValuesR res.2.1 t.rows res.1.rows

/-- Sidebar upload handler (lines 94-95): `st.session_state.data_1, d1, p1 =
process_csv(file1)`.  The assignment is unconditional: whatever the prior
value of the session slot, it is overwritten with the first component of the
result — the sorted table on success, the `None` sentinel on failure. -/
def UploadR (_prior : Option Df) (raw : Df) (next : Option Df) : Prop :=
  (process_csv_result raw = none ∧ next = none) ∨
    ∃ res, ProcessCsvR raw res ∧ next = some res.1

/-! ## Resolution lemmas -/

theorem firstIdx_eq_some (p : α → Bool) [Inhabited α] :
    ∀ (l : List α) (i : ℕ), i < l.length → p (l.getD i default) = true →
      (∀ j, j < i → p (l.getD j default) = false) → firstIdx p l = some i := by
  intro l
  induction l with
  | nil => intro i hi; simp at hi
  | cons a as ih =>
    intro i hi hp hfirst
    by_cases ha : p a = true
    · have hi0 : i = 0 := by
        by_contra h0
        have h1 : 0 < i := Nat.pos_of_ne_zero h0
        have := hfirst 0 h1
        simp [List.getD] at this
        exact absurd ha (by simp [this])
      subst hi0
      simp [firstIdx, ha]
    · have hi0 : i ≠ 0 := by
        intro h0
        subst h0
        simp [List.getD] at hp
        exact ha hp
      obtain ⟨i', rfl⟩ := Nat.exists_eq_succ_of_ne_zero hi0
      have hrec := ih i' (by simpa using hi) (by simpa [List.getD] using hp)
        (fun j hj => by simpa [List.getD] using hfirst (j + 1) (by omega))
      simp [firstIdx, ha, hrec]

theorem firstIdx_eq_none (p : α → Bool) :
    ∀ l : List α, (∀ a ∈ l, p a = false) → firstIdx p l = none := by
  intro l
  induction l with
  | nil => intro _; rfl
  | cons a as ih =>
    intro h
    have ha := h a (by simp)
    have has := ih (fun b hb => h b (by simp [hb]))
    simp [firstIdx, ha, has]

theorem cleanPriceCol_names (df : Df) (j : ℕ) :
    (cleanPriceCol df j).names = df.names := by
  unfold cleanPriceCol
  split <;> rfl

theorem process_csv_prep_resolves {raw : Df} {t : Df} {dj pj : ℕ}
    (h : process_csv_prep raw = .ok (t, dj, pj)) :
    priceColIdx (raw.names.map strStrip) = some pj ∧
      dateColIdx (raw.names.map strStrip) = some dj := by
  unfold process_csv_prep at h
  split at h
  · exact absurd h (by simp)
  · rename_i pj' hp
    split at h
    · exact absurd h (by simp)
    · rename_i dj' hd
      simp only [Except.ok.injEq, Prod.mk.injEq] at h
      obtain ⟨-, h1, h2⟩ := h
      subst h1; subst h2
      rw [cleanPriceCol_names] at hd
      exact ⟨hp, hd⟩

theorem stripNames_names (raw : Df) :
    (stripNames raw).names = raw.names.map strStrip := rfl

/-! ## Claim C2 -/

/-- Claim C2, amended.  During ingestion, headers are trimmed of surrounding
whitespace before role resolution, and when several headers match a role the
first matching column in source order is chosen; but the match is a
case-sensitive contiguous substring test against the literal spellings
`Price` / `price` (PrimaryMetric) and `Date` / `date` (Date): `sales` is not
an alias and spellings such as `PRICE` or `DATE` do not match. -/
theorem role_resolution_first_match :
    (∀ (names : List String) (i : ℕ), i < names.length →
        pricePred (names.getD i "") = true →
        (∀ j, j < i → pricePred (names.getD j "") = false) →
        priceColIdx names = some i) ∧
    (∀ names : List String, (∀ c ∈ names, pricePred c = false) →
        priceColIdx names = none) ∧
    (∀ (names : List String) (i : ℕ), i < names.length →
        datePred (names.getD i "") = true →
        (∀ j, j < i → datePred (names.getD j "") = false) →
        dateColIdx names = some i) ∧
    (∀ (raw t : Df) (dj pj : ℕ), process_csv_prep raw = .ok (t, dj, pj) →
        priceColIdx (raw.names.map strStrip) = some pj ∧
        dateColIdx (raw.names.map strStrip) = some dj) :=
  ⟨fun names i hi hp hf => firstIdx_eq_some pricePred names i hi hp hf,
   fun names h => firstIdx_eq_none pricePred names h,
   fun names i hi hp hf => firstIdx_eq_some datePred names i hi hp hf,
   fun _ _ _ _ h => process_csv_prep_resolves h⟩

/-- Witness for claim C2: on trimmed headers the first `price` match and the
first `Date` match win in source order. -/
theorem role_resolution_first_match_witness :
    priceColIdx ["cost", "Unit Price", "price list"] = some 1 ∧
      dateColIdx ["timestamp", "Order Date", "update date"] = some 1 :=
  ⟨role_resolution_first_match.1 ["cost", "Unit Price", "price list"] 1
      (by decide) (by decide) (fun j hj => by interval_cases j; decide),
   role_resolution_first_match.2.2.1 ["timestamp", "Order Date", "update date"] 1
      (by decide) (by decide) (fun j hj => by interval_cases j; decide)⟩

/-- Counterexample to claim C2 as stated.  Under case-insensitive matching
with the `sales` alias, the headers `Sales` and `PRICE` would both resolve
the PrimaryMetric role; the code's case-sensitive `Price` / `price` scan
matches neither, so ingestion of this table fails with the sentinel instead
of succeeding. -/
theorem role_resolution_counterexample :
    process_csv_result ⟨["Sales", "PRICE", "Date"], [.objT, .objT, .objT],
        [[.sC "800", .sC "801", .sC "2025-01-16"]]⟩ = none ∧
      priceColIdx ["Sales", "PRICE", "Date"] = none := ⟨rfl, rfl⟩

/-! ## Claim C10 -/

/-- Claim C10.  `process_csv` is total at its public interface: the
surrounding `try/except Exception` turns every raised error into the
`(None, None, None)` sentinel (`none` here).  In the embedding the sentinel
is returned exactly when a required column fails to resolve on the trimmed
headers, and every failing run is one of the two caught `IndexError`s of the
`[...][0]` resolution idiom; every other run returns a table. -/
theorem process_csv_totality (raw : Df) :
    (process_csv_result raw = none ↔
      priceColIdx (raw.names.map strStrip) = none ∨
        dateColIdx (raw.names.map strStrip) = none) ∧
    (process_csv_result raw = none →
      process_csv_prep raw = .error "IndexError: price column" ∨
        process_csv_prep raw = .error "IndexError: date column") := by
  have hc : ∀ pj, (cleanPriceCol (stripNames raw) pj).names = raw.names.map strStrip :=
    fun pj => cleanPriceCol_names (stripNames raw) pj
  cases hp : priceColIdx (raw.names.map strStrip) with
  | none =>
    have he : process_csv_prep raw = .error "IndexError: price column" := by
      simp only [process_csv_prep, stripNames_names, hp]
    simp [process_csv_result, he, hp, Except.toOption]
  | some pj =>
    cases hd : dateColIdx (raw.names.map strStrip) with
    | none =>
      have he : process_csv_prep raw = .error "IndexError: date column" := by
        simp only [process_csv_prep, stripNames_names, hp, hc, hd]
      simp [process_csv_result, he, hp, hd, Except.toOption]
    | some dj =>
      have he : process_csv_prep raw =
          .ok (dropna dj pj (toDatetimeCol (cleanPriceCol (stripNames raw) pj) dj), dj, pj) := by
        simp only [process_csv_prep, stripNames_names, hp, hc, hd]
      simp [process_csv_result, he, hp, hd, Except.toOption]

/-- Witness for claim C10: a file with no price-like header is reported as
the sentinel, through the caught price-column `IndexError`. -/
theorem process_csv_totality_witness :
    process_csv_prep ⟨["Date", "Amount"], [.objT, .objT], [[.sC "2025-01-16", .sC "5"]]⟩ =
      .error "IndexError: price column" := by
  rcases (process_csv_totality ⟨["Date", "Amount"], [.objT, .objT],
      [[.sC "2025-01-16", .sC "5"]]⟩).2 rfl with h | h
  · exact h
  · rw [show process_csv_prep ⟨["Date", "Amount"], [.objT, .objT],
        [[.sC "2025-01-16", .sC "5"]]⟩ = .error "IndexError: price column" from rfl] at h
    simp at h

/-! ## Claim C3 -/

/-- Claim C3, amended.  When ingestion fails fatally no partial table is
produced: the result assigned to the session slot is the `None` sentinel.
However, the previously held table is not retained: the unconditional
assignment `st.session_state.data_1, d1, p1 = process_csv(file1)` overwrites
the slot with `None` on a failed load, whatever it held before. -/
theorem upload_failure_overwrites (prior : Option Df) (raw : Df) (next : Option Df)
    (hfail : process_csv_result raw = none) (h : UploadR prior raw next) :
    next = none := by
  rcases h with ⟨-, hn⟩ | ⟨res, ⟨t, hok, -⟩, -⟩
  · exact hn
  · unfold process_csv_result at hfail
    rw [hok] at hfail
    simp [Except.toOption] at hfail

/-- Witness for claim C3: a session holding a table receives `none` after a
failed load (the uploaded file has no price-like column). -/
theorem upload_failure_overwrites_witness :
    ∃ next, UploadR (some ⟨["Date", "Price"], [.dateT, .numT], [[.dC 20250101, .nC 10]]⟩)
        ⟨["Date"], [.objT], [[.sC "2025-01-01"]]⟩ next ∧ next = none :=
  ⟨none, Or.inl ⟨rfl, rfl⟩,
    upload_failure_overwrites
      (some ⟨["Date", "Price"], [.dateT, .numT], [[.dC 20250101, .nC 10]]⟩)
      ⟨["Date"], [.objT], [[.sC "2025-01-01"]]⟩ none rfl (Or.inl ⟨rfl, rfl⟩)⟩

/-- Counterexample to claim C3 as stated: retention fails.  With a prior
table in the session and a file whose ingestion fails, "retained unchanged"
would mean the slot still holds the prior table after the failed load — but
that outcome is impossible under the handler's semantics. -/
theorem upload_retention_counterexample :
    ¬ UploadR (some ⟨["Date", "Price"], [.dateT, .numT], [[.dC 20250101, .nC 10]]⟩)
        ⟨["Date"], [.objT], [[.sC "2025-01-01"]]⟩
        (some ⟨["Date", "Price"], [.dateT, .numT], [[.dC 20250101, .nC 10]]⟩) := by
  intro h
  rcases h with ⟨-, hn⟩ | ⟨res, ⟨t, hok, -⟩, -⟩
  · exact absurd hn (by simp)
  · have : process_csv_prep ⟨["Date"], [.objT], [[.sC "2025-01-01"]]⟩ =
        .error "IndexError: price column" := rfl
    rw [this] at hok
    exact absurd hok (by simp)

/-! ## Claim C8 -/

theorem mem_removeChar {a t : Char} : ∀ {l : List Char}, a ∈ removeChar t l → a ∈ l := by
  intro l
  induction l with
  | nil => simp [removeChar]
  | cons c cs ih =>
    simp only [removeChar]
    split
    · exact fun h => List.mem_cons_of_mem c (ih h)
    · intro h
      rcases List.mem_cons.1 h with h | h
      · simp [h]
      · exact List.mem_cons_of_mem c (ih h)

theorem removeChar_not_mem (t : Char) : ∀ l : List Char, t ∉ removeChar t l := by
  intro l
  induction l with
  | nil => simp [removeChar]
  | cons c cs ih =>
    simp only [removeChar]
    split
    · exact ih
    · rename_i hct
      intro h
      rcases List.mem_cons.1 h with h | h
      · exact hct h.symm
      · exact ih h

theorem mem_stripChars {a : Char} {l : List Char} (h : a ∈ stripChars l) : a ∈ l := by
  unfold stripChars at h
  rw [List.mem_reverse] at h
  have h1 := (List.dropWhile_sublist (l := (l.dropWhile isSpaceChar).reverse)
    (p := isSpaceChar)).subset h
  rw [List.mem_reverse] at h1
  exact (List.dropWhile_sublist (l := l) (p := isSpaceChar)).subset h1

theorem cleanPriceStr_clean (s : String) :
    '₹' ∉ (cleanPriceStr s).data ∧ ',' ∉ (cleanPriceStr s).data := by
  constructor
  · intro h
    have h1 := mem_stripChars h
    exact removeChar_not_mem '₹' _ (mem_removeChar h1)
  · intro h
    exact removeChar_not_mem ',' _ (mem_stripChars h)

/-- Claim C8.  Textual price cells are cleaned by stripping the currency
symbol and the thousands-separator commas and parsing the remainder as a
decimal: `₹1,234.50` normalizes to `1234.50`; the cleaned text never retains
a `₹` or a `,`; and a cell that still fails to parse (here `abc`) has its
whole row dropped by `dropna`, as the end-to-end run of the pipeline body
shows. -/
theorem price_cleaning_theorem :
    toNumeric (cleanPriceStr "₹1,234.50") = some (2469 / 2) ∧
    process_csv_prep ⟨["Date", "Price"], [.objT, .objT],
        [[.sC "2025-01-16", .sC "₹1,234.50"], [.sC "2025-01-17", .sC "abc"]]⟩ =
      .ok (⟨["Date", "Price"], [.dateT, .numT], [[.dC 20250116, .nC (2469 / 2)]]⟩, 0, 1) ∧
    ∀ s : String, '₹' ∉ (cleanPriceStr s).data ∧ ',' ∉ (cleanPriceStr s).data :=
  ⟨by decide, rfl, cleanPriceStr_clean⟩

/-! ## IEEE special values and `pct_change` -/

/-- A float value as pandas observes it: a finite rational, a signed
infinity, or `NaN`.  Pandas treats `NaN` as the missing value (`isna`); the
infinities are ordinary, non-missing values.  Negative zero is outside the
modelled fragment (a parsed `-0` collapses to `0`). -/
inductive FVal
  | fin (q : ℚ)
  | pinf
  | ninf
  | nanF
  deriving DecidableEq, Repr

/-- IEEE division on `FVal`.  Finite ÷ 0 follows the sign of the numerator
(`+0` only: no negative zero in the model). -/
def fdiv : FVal → FVal → FVal
  | .nanF, _ => .nanF
  | _, .nanF => .nanF
  | .fin a, .fin b =>
    if b = 0 then (if a = 0 then .nanF else if 0 < a then .pinf else .ninf)
    else .fin (a / b)
  | .fin _, .pinf => .fin 0
  | .fin _, .ninf => .fin 0
  | .pinf, .fin b => if 0 ≤ b then .pinf else .ninf
  | .ninf, .fin b => if 0 ≤ b then .ninf else .pinf
  | .pinf, .pinf => .nanF
  | .pinf, .ninf => .nanF
  | .ninf, .pinf => .nanF
  | .ninf, .ninf => .nanF

/-- IEEE subtraction on `FVal`. -/
def fsub : FVal → FVal → FVal
  | .nanF, _ => .nanF
  | _, .nanF => .nanF
  | .fin a, .fin b => .fin (a - b)
  | .fin _, .pinf => .ninf
  | .fin _, .ninf => .pinf
  | .pinf, .fin _ => .pinf
  | .ninf, .fin _ => .ninf
  | .pinf, .pinf => .nanF
  | .pinf, .ninf => .pinf
  | .ninf, .pinf => .ninf
  | .ninf, .ninf => .nanF

/-- IEEE multiplication on `FVal`. -/
def fmul : FVal → FVal → FVal
  | .nanF, _ => .nanF
  | _, .nanF => .nanF
  | .fin a, .fin b => .fin (a * b)
  | .pinf, .fin b => if b = 0 then .nanF else if 0 < b then .pinf else .ninf
  | .ninf, .fin b => if b = 0 then .nanF else if 0 < b then .ninf else .pinf
  | .fin a, .pinf => if a = 0 then .nanF else if 0 < a then .pinf else .ninf
  | .fin a, .ninf => if a = 0 then .nanF else if 0 < a then .ninf else .pinf
  | .pinf, .pinf => .pinf
  | .pinf, .ninf => .ninf
  | .ninf, .pinf => .ninf
  | .ninf, .ninf => .pinf

/-- `Series.shift(1)`: a leading `NaN`, the last value dropped. -/
def shift1 (xs : List FVal) : List FVal := .nanF :: xs.dropLast

/-- `Series.pct_change()`, as pandas computes it:
`self / self.shift(1) - 1` (the series here has no internal missing values,
so the deprecated `fill_method` padding is a no-op). -/
def pct_change (xs : List FVal) : List FVal :=
  List.zipWith (fun c p => fsub (fdiv c p) (.fin 1)) xs (shift1 xs)

/-- Line 176: `filtered_df[p_col].pct_change() * 100`. -/
def returnsPct (xs : List FVal) : List FVal :=
  (pct_change xs).map (fun v => fmul v (.fin 100))

/-- Recursion-friendly form of `pct_change`: each entry divides the current
value by the previous one. -/
def pcGo (prev : FVal) : List FVal → List FVal
  | [] => []
  | c :: rest => fsub (fdiv c prev) (.fin 1) :: pcGo c rest

theorem zip_shift_eq_pcGo (prev : FVal) (l : List FVal) :
    List.zipWith (fun c p => fsub (fdiv c p) (.fin 1)) l (prev :: l.dropLast) =
      pcGo prev l := by
  induction l generalizing prev with
  | nil => rfl
  | cons c rest ih =>
    cases rest with
    | nil => rfl
    | cons r t =>
      simp only [List.dropLast_cons₂, List.zipWith_cons_cons, pcGo]
      exact congrArg _ (ih c)

theorem pct_change_eq_pcGo (xs : List FVal) :
    pct_change xs =
      match xs with
      | [] => []
      | a :: t => fsub (fdiv a .nanF) (.fin 1) :: pcGo a t := by
  cases xs with
  | nil => rfl
  | cons a t =>
    show List.zipWith _ (a :: t) (.nanF :: (a :: t).dropLast) = _
    cases t with
    | nil => rfl
    | cons b u =>
      simp only [List.dropLast_cons₂, List.zipWith_cons_cons]
      exact congrArg _ (zip_shift_eq_pcGo a (b :: u))

theorem pcGo_getD (l : List FVal) : ∀ (prev : FVal) (i : ℕ), i < l.length →
    (pcGo prev l).getD i .nanF =
      fsub (fdiv (l.getD i .nanF) ((prev :: l).getD i .nanF)) (.fin 1) := by
  induction l with
  | nil => intro prev i hi; simp at hi
  | cons c rest ih =>
    intro prev i hi
    cases i with
    | zero => rfl
    | succ j => exact ih c j (by simpa using hi)

theorem pcGo_length (l : List FVal) : ∀ prev, (pcGo prev l).length = l.length := by
  induction l with
  | nil => intro _; rfl
  | cons c rest ih => intro prev; simp [pcGo, ih c]

theorem getD_map_fmul100 (l : List FVal) : ∀ i, i < l.length →
    (l.map (fun v => fmul v (.fin 100))).getD i .nanF =
      fmul (l.getD i .nanF) (.fin 100) := by
  induction l with
  | nil => intro i hi; simp at hi
  | cons c rest ih =>
    intro i hi
    cases i with
    | zero => rfl
    | succ j => exact ih j (by simpa using hi)

theorem getD_map_fin (l : List ℚ) : ∀ i, i < l.length →
    (l.map FVal.fin).getD i .nanF = .fin (l.getD i 0) := by
  induction l with
  | nil => intro i hi; simp at hi
  | cons c rest ih =>
    intro i hi
    cases i with
    | zero => rfl
    | succ j => exact ih j (by simpa using hi)

/-! ## Claim C4 -/

/-- Claim C4, amended.  `pct_change() * 100` (line 176) yields a series of
the same length with no defined entry at row 0 (the entry is `NaN`, which
pandas reports as missing), and entry `i ≥ 1` equal to
`(metric[i] - metric[i-1]) / metric[i-1] * 100` whenever `metric[i-1] ≠ 0`.
When `metric[i-1] = 0`, however, the entry is not null: it is `+inf` when
`metric[i] > 0` and `-inf` when `metric[i] < 0` (pandas does not treat the
infinities as missing); only the `0/0` case yields `NaN`.  The failure
remains element-wise — the computation never raises. -/
theorem returns_pct_characterization (xs : List ℚ) :
    (returnsPct (xs.map .fin)).length = xs.length ∧
    (0 < xs.length → (returnsPct (xs.map .fin)).getD 0 .nanF = .nanF) ∧
    (∀ i, 1 ≤ i → i < xs.length →
      (returnsPct (xs.map .fin)).getD i .nanF =
        (if xs.getD (i - 1) 0 = 0 then
          (if xs.getD i 0 = 0 then .nanF
           else if 0 < xs.getD i 0 then .pinf else .ninf)
         else .fin ((xs.getD i 0 - xs.getD (i - 1) 0) / xs.getD (i - 1) 0 * 100))) := by
  refine ⟨?_, ?_, ?_⟩
  · unfold returnsPct
    rw [List.length_map, pct_change_eq_pcGo]
    cases xs with
    | nil => rfl
    | cons a t => simp [pcGo_length]
  · intro hpos
    cases xs with
    | nil => simp at hpos
    | cons a t =>
      unfold returnsPct
      rw [pct_change_eq_pcGo]
      rfl
  · intro i h1 hi
    cases xs with
    | nil => simp at hi
    | cons a t =>
      obtain ⟨j, rfl⟩ := Nat.exists_eq_add_of_le h1
      have hj : j < t.length := by simp at hi; omega
      have hlen : (1 + j) - 1 = j := by omega
      unfold returnsPct
      rw [pct_change_eq_pcGo]
      have hmapcons : (a :: t).map FVal.fin = FVal.fin a :: t.map FVal.fin := rfl
      rw [hmapcons]
      have hpc : (fsub (fdiv (.fin a) .nanF) (.fin 1) :: pcGo (.fin a) (t.map .fin)).getD
          (1 + j) .nanF = (pcGo (.fin a) (t.map .fin)).getD j .nanF := by
        rw [show 1 + j = j + 1 from by omega]
        rfl
      have hlist : (fsub (fdiv (.fin a) .nanF) (.fin 1) ::
          pcGo (.fin a) (t.map .fin)).length = 1 + t.length := by
        simp [pcGo_length]; omega
      rw [getD_map_fmul100 _ (1 + j) (by rw [hlist]; omega), hpc,
        pcGo_getD _ _ j (by simpa using hj)]
      have hcur : (t.map FVal.fin).getD j .nanF = .fin (t.getD j 0) :=
        getD_map_fin t j hj
      have hprev : (FVal.fin a :: t.map FVal.fin).getD j .nanF =
          .fin ((a :: t).getD j 0) := by
        rw [show FVal.fin a :: t.map FVal.fin = (a :: t).map FVal.fin from rfl]
        exact getD_map_fin (a :: t) j (by simp; omega)
      rw [hcur, hprev, hlen]
      have hcur2 : t.getD j 0 = (a :: t).getD (1 + j) 0 := by
        rw [show 1 + j = j + 1 from by omega]; rfl
      rw [← hcur2]
      generalize t.getD j 0 = cur
      generalize (a :: t).getD j 0 = prev
      by_cases hprev0 : prev = 0
      · rw [if_pos hprev0, hprev0]
        by_cases hcur0 : cur = 0
        · rw [if_pos hcur0, hcur0]
          norm_num [fdiv, fsub, fmul]
        · rw [if_neg hcur0]
          by_cases hcpos : 0 < cur
          · rw [if_pos hcpos]
            have hd : fdiv (.fin cur) (.fin 0) = .pinf := by simp [fdiv, hcur0, hcpos]
            rw [hd]
            norm_num [fsub, fmul]
          · rw [if_neg hcpos]
            have hd : fdiv (.fin cur) (.fin 0) = .ninf := by simp [fdiv, hcur0, hcpos]
            rw [hd]
            norm_num [fsub, fmul]
      · rw [if_neg hprev0]
        have hd : fdiv (.fin cur) (.fin prev) = .fin (cur / prev) := by
          simp [fdiv, hprev0]
        rw [hd]
        show FVal.fin ((cur / prev - 1) * 100) = _
        congr 1
        field_simp

/-- Counterexample to claim C4 as stated.  With `metric = [0, 5]` the entry
at row 1 divides by the zero at row 0: the code produces `+inf`, which
pandas does not treat as null — not the claimed null entry. -/
theorem returns_pct_counterexample :
    returnsPct ([(0 : ℚ), 5].map FVal.fin) = [.nanF, .pinf] ∧
      FVal.pinf ≠ FVal.nanF := ⟨by decide, by decide⟩

/-- Witness for claim C4: with `metric = [3, 6]` the entry at row 1 is
`(6 - 3) / 3 * 100 = 100` per cent. -/
theorem returns_pct_witness :
    (returnsPct ([(3 : ℚ), 6].map FVal.fin)).getD 1 .nanF = .fin 100 := by
  have h := (returns_pct_characterization [3, 6]).2.2 1 (by norm_num) (by norm_num)
  norm_num [List.getD] at h
  simpa [List.getD] using h

/-! ## Claim C5: the rolling mean -/

/-- The sliding-window pass of `Series.rolling(w).mean()` (pandas computes
rolling aggregates by sliding a window: the entering value is appended and,
once the window is full, the leaving value is dropped).  `win` holds the at
most `w - 1` values preceding the current position. -/
def roll_mean_go (w : ℕ) : List ℚ → List ℚ → List (Option ℚ)
  | _, [] => []
  | win, x :: rest =>
    if (win ++ [x]).length < w then none :: roll_mean_go w (win ++ [x]) rest
    else some ((win ++ [x]).sum / (w : ℚ)) :: roll_mean_go w ((win ++ [x]).drop 1) rest

/-- `df[p_col].rolling(w).mean()` with the default `min_periods = w`:
positions with an incomplete window yield `NaN` (`none`). -/
def moving_average (w : ℕ) (xs : List ℚ) : List (Option ℚ) :=
  roll_mean_go w [] xs

/-- Line 148: `filtered_df[p_col].rolling(7).mean()`, the MA7 column. -/
def MA7 (xs : List ℚ) : List (Option ℚ) := moving_average 7 xs

theorem roll_mean_go_spec (w : ℕ) :
    ∀ (l pre : List ℚ), pre.length < w →
      (roll_mean_go w pre l).length = l.length ∧
      ∀ i, i < l.length →
        (pre.length + i + 1 < w → (roll_mean_go w pre l).getD i none = none) ∧
        (w ≤ pre.length + i + 1 →
          (roll_mean_go w pre l).getD i none =
            some ((((pre ++ l).drop (pre.length + i + 1 - w)).take w).sum / (w : ℚ))) := by
  intro l
  induction l with
  | nil =>
    intro pre hpre
    exact ⟨rfl, fun i hi => absurd hi (by simp)⟩
  | cons x rest ih =>
    intro pre hpre
    by_cases hfull : (pre ++ [x]).length < w
    · have hgo : roll_mean_go w pre (x :: rest) =
          none :: roll_mean_go w (pre ++ [x]) rest := by
        simp only [roll_mean_go, if_pos hfull]
      obtain ⟨ihlen, ihspec⟩ := ih (pre ++ [x]) hfull
      refine ⟨by simp [hgo, ihlen], ?_⟩
      intro i hi
      cases i with
      | zero =>
        refine ⟨fun _ => by simp [hgo], fun hc => ?_⟩
        exfalso
        simp at hfull
        omega
      | succ j =>
        have hj : j < rest.length := by simp at hi; omega
        obtain ⟨c1, c2⟩ := ihspec j hj
        constructor
        · intro hlt
          have hh : (pre ++ [x]).length + j + 1 < w := by
            simp only [List.length_append, List.length_cons, List.length_nil]
            omega
          rw [hgo, List.getD_cons_succ]
          exact c1 hh
        · intro hge
          have hh : w ≤ (pre ++ [x]).length + j + 1 := by
            simp only [List.length_append, List.length_cons, List.length_nil]
            omega
          have hc2 := c2 hh
          have harr : (pre ++ [x]) ++ rest = pre ++ x :: rest := by simp
          have hidx : (pre ++ [x]).length + j + 1 - w =
              pre.length + (j + 1) + 1 - w := by
            simp only [List.length_append, List.length_cons, List.length_nil]
            omega
          rw [harr, hidx] at hc2
          rw [hgo, List.getD_cons_succ]
          exact hc2
    · have hlenf : (pre ++ [x]).length = w := by
        simp only [List.length_append, List.length_cons, List.length_nil] at hfull ⊢
        omega
      have hgo : roll_mean_go w pre (x :: rest) =
          some ((pre ++ [x]).sum / (w : ℚ)) ::
            roll_mean_go w ((pre ++ [x]).drop 1) rest := by
        simp only [roll_mean_go, if_neg hfull]
      have hpre' : ((pre ++ [x]).drop 1).length < w := by
        rw [List.length_drop, hlenf]
        omega
      obtain ⟨ihlen, ihspec⟩ := ih ((pre ++ [x]).drop 1) hpre'
      refine ⟨by rw [hgo, List.length_cons, ihlen, List.length_cons], ?_⟩
      intro i hi
      cases i with
      | zero =>
        constructor
        · intro hlt
          exfalso
          simp only [List.length_append, List.length_cons, List.length_nil] at hlenf
          omega
        · intro hge
          rw [hgo, List.getD_cons_zero]
          have h0 : pre.length + 0 + 1 - w = 0 := by
            simp only [List.length_append, List.length_cons, List.length_nil] at hlenf
            omega
          rw [h0, List.drop_zero]
          have htake : (pre ++ x :: rest).take w = pre ++ [x] := by
            rw [show pre ++ x :: rest = (pre ++ [x]) ++ rest by simp, ← hlenf]
            exact List.take_left _ _
          rw [htake]
      | succ j =>
        have hj : j < rest.length := by simp at hi; omega
        obtain ⟨c1, c2⟩ := ihspec j hj
        have hdl : ((pre ++ [x]).drop 1).length = w - 1 := by
          rw [List.length_drop, hlenf]
        constructor
        · intro hlt
          exfalso
          simp only [List.length_append, List.length_cons, List.length_nil] at hlenf
          omega
        · intro hge
          have hh : w ≤ ((pre ++ [x]).drop 1).length + j + 1 := by
            rw [hdl]
            omega
          have hc2 := c2 hh
          have harr : (pre ++ [x]).drop 1 ++ rest = (pre ++ x :: rest).drop 1 := by
            rw [show pre ++ x :: rest = (pre ++ [x]) ++ rest by simp]
            conv_rhs => rw [List.drop_append_of_le_length (by rw [hlenf]; omega)]
          have hidx : ((pre ++ [x]).drop 1).length + j + 1 - w = j := by
            rw [hdl]
            simp only [List.length_append, List.length_cons, List.length_nil] at hlenf
            omega
          rw [harr, hidx] at hc2
          have hidx2 : pre.length + (j + 1) + 1 - w = j + 1 := by
            simp only [List.length_append, List.length_cons, List.length_nil] at hlenf
            omega
          rw [hgo, List.getD_cons_succ, hc2, hidx2, List.drop_drop, Nat.add_comm 1 j]

/-- Claim C5.  For every table and every positive window `w` not exceeding
the table length, `rolling(w).mean()` has the same length as the input;
positions `i` with `i + 1 < w` (fewer than `w` points available) are null —
not zero and not a partial-window average; and every other position `i` is
the arithmetic mean of the `w` values at positions `i - w + 1 .. i` (the
window sliced there has exactly `w` elements). -/
theorem moving_average_spec (w : ℕ) (xs : List ℚ) (hw : 0 < w) (hlen : w ≤ xs.length) :
    (moving_average w xs).length = xs.length ∧
    (∀ i, i + 1 < w → (moving_average w xs).getD i none = none) ∧
    (∀ i, i < xs.length → w ≤ i + 1 →
      ((xs.drop (i + 1 - w)).take w).length = w ∧
      (moving_average w xs).getD i none =
        some (((xs.drop (i + 1 - w)).take w).sum / (w : ℚ))) := by
  obtain ⟨l1, l2⟩ := roll_mean_go_spec w xs [] (by simpa using hw)
  refine ⟨l1, ?_, ?_⟩
  · intro i hiw
    by_cases hi : i < xs.length
    · exact (l2 i hi).1 (by simpa using hiw)
    · have hle : (moving_average w xs).length ≤ i := by
        unfold moving_average
        rw [l1]
        omega
      exact List.getD_eq_default _ _ hle
  · intro i hi hwi
    refine ⟨by rw [List.length_take, List.length_drop]; omega, ?_⟩
    have := (l2 i hi).2 (by simpa using hwi)
    simpa using this

/-- Witness for claim C5: the spec scenario, window 2 over the three prices
`93.2, 93.5, 92.8`: same length as the input and a null leading entry. -/
theorem moving_average_spec_witness :
    (moving_average 2 [(466 : ℚ)/5, 187/2, 464/5]).length = 3 ∧
      (moving_average 2 [(466 : ℚ)/5, 187/2, 464/5]).getD 0 none = none :=
  ⟨((moving_average_spec 2 [(466 : ℚ)/5, 187/2, 464/5] (by norm_num)
      (by norm_num)).1).trans rfl,
   (moving_average_spec 2 [(466 : ℚ)/5, 187/2, 464/5] (by norm_num)
      (by norm_num)).2.1 0 (by norm_num)⟩

/-! ## Claim C6: volatility (sample standard deviation) -/

/-- `Series.mean()`: `NaN` on an empty series. -/
def seriesMean (xs : List ℚ) : Option ℚ :=
  if xs.length = 0 then none else some (xs.sum / (xs.length : ℚ))

/-- The variance underlying `Series.std()` with the default `ddof = 1`
(sample variance): `NaN` when fewer than two observations are available —
pandas masks the `0 / 0` of a single observation to `NaN`, it does not
define it as `0`. -/
def sampleVar (xs : List ℚ) : Option ℚ :=
  if xs.length < 2 then none
  else some ((xs.map (fun x => (x - xs.sum / (xs.length : ℚ)) ^ 2)).sum /
    ((xs.length : ℚ) - 1))

/-- `Series.std()` (line 135): the square root of the sample variance,
`NaN` when the variance is `NaN`. -/
noncomputable def seriesStd (xs : List ℚ) : Option ℝ :=
  (sampleVar xs).map (fun v => Real.sqrt (v : ℝ))

/-- Counterexample to claim C6 as stated: the volatility KPI of a single-row
table is `NaN` (missing), not the claimed `0`, while the displayed count is
indeed `1`. -/
theorem volatility_single_row_counterexample :
    seriesStd [(466 : ℚ)/5] = none ∧ (none : Option ℝ) ≠ some 0 ∧
      [(466 : ℚ)/5].length = 1 := ⟨rfl, by simp, rfl⟩

/-- Claim C6, amended.  The volatility KPI uses the sample (`n - 1`
denominator) standard deviation of the price column: for `n ≥ 2` rows it is
the square root of the nonnegative value `v` with
`v * (n - 1) = Σ (x - mean)²`.  For a single row, however, `std()` is `NaN`
(missing), not `0`; the row count shown beside it is `1` (`len`). -/
theorem volatility_std_characterization (xs : List ℚ) :
    (xs.length = 1 → seriesStd xs = none) ∧
    (2 ≤ xs.length → ∃ v : ℚ, sampleVar xs = some v ∧ 0 ≤ v ∧
      seriesStd xs = some (Real.sqrt (v : ℝ)) ∧
      (Real.sqrt (v : ℝ)) ^ 2 = (v : ℝ) ∧
      v * ((xs.length : ℚ) - 1) =
        (xs.map (fun x => (x - xs.sum / (xs.length : ℚ)) ^ 2)).sum) := by
  constructor
  · intro h1
    unfold seriesStd sampleVar
    rw [h1]
    rfl
  · intro h2
    have hne : ¬ xs.length < 2 := by omega
    have hpos : (0 : ℚ) < (xs.length : ℚ) - 1 := by
      have : (2 : ℚ) ≤ (xs.length : ℚ) := by exact_mod_cast h2
      linarith
    refine ⟨(xs.map (fun x => (x - xs.sum / (xs.length : ℚ)) ^ 2)).sum /
      ((xs.length : ℚ) - 1), ?_, ?_, ?_, ?_, ?_⟩
    · unfold sampleVar
      rw [if_neg hne]
    · apply div_nonneg _ (le_of_lt hpos)
      apply List.sum_nonneg
      intro y hy
      obtain ⟨x, -, rfl⟩ := List.mem_map.1 hy
      positivity
    · unfold seriesStd sampleVar
      rw [if_neg hne]
      rfl
    · apply Real.sq_sqrt
      have h0 : (0 : ℚ) ≤ (xs.map (fun x => (x - xs.sum / (xs.length : ℚ)) ^ 2)).sum /
          ((xs.length : ℚ) - 1) := by
        apply div_nonneg _ (le_of_lt hpos)
        apply List.sum_nonneg
        intro y hy
        obtain ⟨x, -, rfl⟩ := List.mem_map.1 hy
        positivity
      exact_mod_cast h0
    · exact div_mul_cancel₀ _ (ne_of_gt hpos)

/-! ## Manual entry (lines 219-229) and the C1 invariant -/

/-- The one-row frame built by the manual-entry form (line 226):
`pd.DataFrame([{d_col: pd.to_datetime(new_date), p_col: new_price, 'Trend':
new_trend}])`, with the hardcoded labels `d_col = "Date"` and
`p_col = "Price (Per Gram)"` of line 104.  The form widgets always deliver a
genuine date and a float, so the cells are present. -/
def newRowDf (dt : ℤ) (price : ℚ) (trend : String) : Df :=
  { names := ["Date", "Price (Per Gram)", "Trend"]
    dtypes := [.dateT, .numT, .objT]
    rows := [[.dC dt, .nC price, .sC trend]] }

/-- Index of the first column bearing a name (`df[name]` selection). -/
def nameIdx (names : List String) (n : String) : Option ℕ :=
  firstIdx (fun c => c = n) names

/-- Align one row of a frame with column names `src` to the column list
`dst`: a column absent from `src` is filled with the missing value (the
outer join of `pd.concat`). -/
def alignRow (src dst : List String) (r : List Cell) : List Cell :=
  dst.map (fun n =>
    match nameIdx src n with
    | some j => r.getD j .naC
    | none => .naC)

/-- Combined dtype of a column of the concatenation (pandas promotes
disagreeing dtypes to `object`; a column present on one side only keeps its
dtype, its missing entries being `NaN`/`NaT`). -/
def joinDtype : Option Dtype → Option Dtype → Dtype
  | some a, some b => if a = b then a else .objT
  | some a, none => a
  | none, some b => b
  | none, none => .objT

def colDtype (df : Df) (n : String) : Option Dtype :=
  (nameIdx df.names n).map (fun j => df.dtypes.getD j .objT)

/-- `pd.concat([a, b], ignore_index := True)` with the default outer join:
the columns are `a`'s followed by `b`'s new ones in order of appearance, and
rows of either frame are aligned to that list. -/
def concatOuter (a b : Df) : Df :=
  let names := a.names ++ b.names.filter (fun n => ! a.names.contains n)
  { names := names
    dtypes := names.map (fun n => joinDtype (colDtype a n) (colDtype b n))
    rows := a.rows.map (alignRow a.names names) ++
      b.rows.map (alignRow b.names names) }

/-- Lines 226-227: build the one-row frame, concatenate, and re-sort by the
hardcoded `"Date"` label, under the `sort_values` contract semantics. -/
def ManualAppendR (t : Df) (dt : ℤ) (price : ℚ) (trend : String) (u : Df) : Prop :=
  ∃ dj, nameIdx (concatOuter t (newRowDf dt price trend)).names "Date" = some dj ∧
    u.names = (concatOuter t (newRowDf dt price trend)).names ∧
    u.dtypes = (concatOuter t (newRowDf dt price trend)).dtypes ∧
    SortValuesR dj (concatOuter t (newRowDf dt price trend)).rows u.rows

/-- Is the cell a parsed datetime? -/
def isDateCell : Cell → Bool
  | .dC _ => true
  | _ => false

/-- The C1 invariant of a table relative to its resolved column indices:
rows non-decreasing in the date key, every date cell a parsed datetime, and
every primary-metric cell present (non-missing). -/
def TableInv (dj pj : ℕ) (df : Df) : Prop :=
  SortedByKey dj df.rows ∧
    ∀ r ∈ df.rows, isDateCell (r.getD dj .naC) = true ∧ r.getD pj .naC ≠ .naC

instance (dj pj : ℕ) (df : Df) : Decidable (TableInv dj pj df) :=
  inferInstanceAs (Decidable (SortedByKey dj df.rows ∧
    ∀ r ∈ df.rows, isDateCell (r.getD dj .naC) = true ∧ r.getD pj .naC ≠ .naC))

/-! ### Supporting lemmas for claim C1 -/

theorem firstIdx_some_spec (p : α → Bool) (d : α) :
    ∀ (l : List α) (i : ℕ), firstIdx p l = some i →
      i < l.length ∧ p (l.getD i d) = true := by
  intro l
  induction l with
  | nil => intro i h; exact absurd h (by simp [firstIdx])
  | cons a as ih =>
    intro i h
    by_cases ha : p a = true
    · simp [firstIdx, ha] at h
      subst h
      exact ⟨by simp, ha⟩
    · have ha' : p a = false := by simpa using ha
      simp [firstIdx, ha'] at h
      obtain ⟨i', hrec, hi⟩ := h
      subst hi
      obtain ⟨h1, h2⟩ := ih i' hrec
      exact ⟨by simpa using h1, by simpa using h2⟩

theorem firstIdx_append_left (p : α → Bool) :
    ∀ (l e : List α) (i : ℕ), firstIdx p l = some i →
      firstIdx p (l ++ e) = some i := by
  intro l
  induction l with
  | nil => intro e i h; exact absurd h (by simp [firstIdx])
  | cons a as ih =>
    intro e i h
    by_cases ha : p a = true
    · simp [firstIdx, ha] at h ⊢
      exact h
    · have ha' : p a = false := by simpa using ha
      simp [firstIdx, ha'] at h
      obtain ⟨i', hrec, hi⟩ := h
      subst hi
      show firstIdx p (a :: (as ++ e)) = some (i' + 1)
      simp [firstIdx, ha', ih e i' hrec]

theorem getD_modifyAt_self (f : α → α) (d : α) :
    ∀ (l : List α) (j : ℕ),
      (modifyAt f j l).getD j d = if j < l.length then f (l.getD j d) else d := by
  intro l
  induction l with
  | nil => intro j; cases j <;> simp [modifyAt]
  | cons a as ih =>
    intro j
    cases j with
    | zero => simp [modifyAt]
    | succ j' =>
      simp only [modifyAt, List.getD_cons_succ, ih j', List.length_cons]
      by_cases h : j' < as.length
      · rw [if_pos h, if_pos (by omega)]
      · rw [if_neg h, if_neg (by omega)]

theorem toDatetimeCell_shape (c : Cell) :
    isDateCell (toDatetimeCell c) = true ∨ toDatetimeCell c = .naC := by
  cases c with
  | sC s =>
    cases hps : parseDate s with
    | none => exact Or.inr (by simp [toDatetimeCell, hps])
    | some z => exact Or.inl (by simp [toDatetimeCell, hps, isDateCell])
  | nC q => exact Or.inr rfl
  | dC t => exact Or.inl rfl
  | naC => exact Or.inr rfl

theorem naKeyRow_eq_not_isDateCell (dj : ℕ) (r : List Cell) :
    naKeyRow dj r = ! isDateCell (r.getD dj .naC) := by
  unfold naKeyRow isDateCell
  cases r.getD dj .naC <;> rfl

/-- On a table whose rows all carry a present date key, the `sort_values`
contract collapses to: the output is a sorted permutation of the rows. -/
theorem sortValuesR_all_valid {dj : ℕ} {rows u : List (List Cell)}
    (hval : ∀ r ∈ rows, naKeyRow dj r = false)
    (h : SortValuesR dj rows u) :
    u.Perm rows ∧ SortedByKey dj u := by
  obtain ⟨v, hu, hperm, hsort⟩ := h
  have hna : rows.filter (naKeyRow dj) = [] := by
    apply List.filter_eq_nil.2
    intro r hr
    simp [hval r hr]
  have hall : rows.filter (fun r => ! naKeyRow dj r) = rows := by
    apply List.filter_eq_self.2
    intro r hr
    simp [hval r hr]
  rw [hna, List.append_nil] at hu
  rw [hall] at hperm
  subst hu
  exact ⟨hperm, hsort⟩

/-- Every row surviving `process_csv_prep` passes `dropna` and carries a
parsed datetime in the resolved date column. -/
theorem process_csv_prep_rows {raw t : Df} {dj pj : ℕ}
    (h : process_csv_prep raw = .ok (t, dj, pj)) :
    ∀ r ∈ t.rows, validRow dj pj r = true ∧ isDateCell (r.getD dj .naC) = true := by
  unfold process_csv_prep at h
  split at h
  · exact absurd h (by simp)
  · rename_i pj' hp
    split at h
    · exact absurd h (by simp)
    · rename_i dj' hd
      simp only [Except.ok.injEq, Prod.mk.injEq] at h
      obtain ⟨ht, h1, h2⟩ := h
      subst ht
      intro r hr
      rw [← h1, ← h2]
      have hval : validRow dj' pj' r = true := List.of_mem_filter hr
      refine ⟨hval, ?_⟩
      have hmem : r ∈ (toDatetimeCol (cleanPriceCol (stripNames raw) pj') dj').rows :=
        List.mem_of_mem_filter hr
      obtain ⟨r0, -, rfl⟩ := List.mem_map.1 hmem
      rcases toDatetimeCell_shape (r0.getD dj' .naC) with hc | hc
      · rw [getD_modifyAt_self]
        split
        · exact hc
        · exfalso
          unfold validRow at hval
          rw [getD_modifyAt_self] at hval
          rename_i hrange
          rw [if_neg hrange] at hval
          simp at hval
      · unfold validRow at hval
        rw [getD_modifyAt_self] at hval
        split at hval
        · rw [hc] at hval; simp at hval
        · simp at hval

theorem getD_map_of_lt (f : α → β) (d : β) (da : α) :
    ∀ (l : List α) (k : ℕ), k < l.length →
      (l.map f).getD k d = f (l.getD k da) := by
  intro l
  induction l with
  | nil => intro k hk; simp at hk
  | cons a as ih =>
    intro k hk
    cases k with
    | zero => rfl
    | succ j => exact ih j (by simpa using hk)

/-! ## Claim C1 -/

/-- Claim C1, amended.  For every input whose Date and PrimaryMetric columns
resolve, the ingested table is sorted non-decreasing by date and no
surviving row has a missing Date or PrimaryMetric (rows failing coercion are
dropped by `dropna`, not retained with nulls).  The manual append path
preserves the invariant *provided* the table's resolved Date and
PrimaryMetric columns carry exactly the hardcoded labels `Date` and
`Price (Per Gram)` that line 104 assumes of every ingested file; a table
legitimately ingested under any other headers is corrupted by the append
(the new row lands in freshly created columns and holds missing values in
the resolved ones — see the counterexample). -/
theorem ingestion_invariant :
    (∀ (raw : Df) (res : Df × ℕ × ℕ), ProcessCsvR raw res →
      TableInv res.2.1 res.2.2 res.1) ∧
    (∀ (t : Df) (dj pj : ℕ) (dt : ℤ) (price : ℚ) (trend : String) (u : Df),
      nameIdx t.names "Date" = some dj →
      nameIdx t.names "Price (Per Gram)" = some pj →
      TableInv dj pj t →
      ManualAppendR t dt price trend u →
      TableInv dj pj u) := by
  constructor
  · rintro raw res ⟨t, hok, -, -, hs⟩
    have hrows := process_csv_prep_rows hok
    have hval : ∀ r ∈ t.rows, naKeyRow res.2.1 r = false := by
      intro r hr
      rw [naKeyRow_eq_not_isDateCell, (hrows r hr).2]
      rfl
    obtain ⟨hperm, hsort⟩ := sortValuesR_all_valid hval hs
    refine ⟨hsort, ?_⟩
    intro r hr
    have hrt : r ∈ t.rows := hperm.mem_iff.1 hr
    obtain ⟨hv, hdc⟩ := hrows r hrt
    refine ⟨hdc, ?_⟩
    unfold validRow at hv
    simp only [Bool.and_eq_true, decide_eq_true_eq, ne_eq] at hv
    exact hv.2
  · rintro t dj pj dt price trend u hD hP hinv ⟨dj2, hdj2, -, -, hs⟩
    have hDapp : nameIdx (concatOuter t (newRowDf dt price trend)).names "Date" =
        some dj :=
      firstIdx_append_left _ t.names _ dj hD
    rw [hDapp] at hdj2
    have hdjeq : dj = dj2 := Option.some.inj hdj2
    subst hdjeq
    obtain ⟨hdjlt, hdjname⟩ := firstIdx_some_spec _ "" t.names dj hD
    obtain ⟨hpjlt, hpjname⟩ := firstIdx_some_spec _ "" t.names pj hP
    have hdjname' : t.names.getD dj "" = "Date" := by simpa using hdjname
    have hpjname' : t.names.getD pj "" = "Price (Per Gram)" := by simpa using hpjname
    set cN := (concatOuter t (newRowDf dt price trend)).names with hcN
    have hcNdef : cN = t.names ++
        ((newRowDf dt price trend).names.filter (fun n => ! t.names.contains n)) := rfl
    have hcNlen : t.names.length ≤ cN.length := by
      rw [hcNdef, List.length_append]
      omega
    have hcNdj : cN.getD dj "" = "Date" := by
      rw [hcNdef, List.getD_append _ _ _ _ hdjlt]
      exact hdjname'
    have hcNpj : cN.getD pj "" = "Price (Per Gram)" := by
      rw [hcNdef, List.getD_append _ _ _ _ hpjlt]
      exact hpjname'
    -- cell access of an aligned old row
    have holdD : ∀ r : List Cell, (alignRow t.names cN r).getD dj .naC = r.getD dj .naC := by
      intro r
      unfold alignRow
      rw [getD_map_of_lt _ _ "" cN dj (by omega), hcNdj]
      unfold nameIdx at hD ⊢
      rw [hD]
    have holdP : ∀ r : List Cell, (alignRow t.names cN r).getD pj .naC = r.getD pj .naC := by
      intro r
      unfold alignRow
      rw [getD_map_of_lt _ _ "" cN pj (by omega), hcNpj]
      unfold nameIdx at hP ⊢
      rw [hP]
    -- cell access of the aligned new row
    have hnewD : (alignRow (newRowDf dt price trend).names cN
        [.dC dt, .nC price, .sC trend]).getD dj .naC = .dC dt := by
      unfold alignRow
      rw [getD_map_of_lt _ _ "" cN dj (by omega), hcNdj]
      rfl
    have hnewP : (alignRow (newRowDf dt price trend).names cN
        [.dC dt, .nC price, .sC trend]).getD pj .naC = .nC price := by
      unfold alignRow
      rw [getD_map_of_lt _ _ "" cN pj (by omega), hcNpj]
      rfl
    have hrowsdef : (concatOuter t (newRowDf dt price trend)).rows =
        t.rows.map (alignRow t.names cN) ++
          [alignRow (newRowDf dt price trend).names cN [.dC dt, .nC price, .sC trend]] := rfl
    -- every concatenated row carries a date key
    have hval : ∀ r ∈ (concatOuter t (newRowDf dt price trend)).rows,
        naKeyRow dj r = false := by
      intro r hr
      rw [hrowsdef] at hr
      rcases List.mem_append.1 hr with hr | hr
      · obtain ⟨r0, hr0, rfl⟩ := List.mem_map.1 hr
        rw [naKeyRow_eq_not_isDateCell, holdD r0, (hinv.2 r0 hr0).1]
        rfl
      · rw [List.mem_singleton.1 hr, naKeyRow_eq_not_isDateCell, hnewD]
        rfl
    obtain ⟨hperm, hsort⟩ := sortValuesR_all_valid hval hs
    refine ⟨hsort, ?_⟩
    intro r hr
    have hrc : r ∈ (concatOuter t (newRowDf dt price trend)).rows := hperm.mem_iff.1 hr
    rw [hrowsdef] at hrc
    rcases List.mem_append.1 hrc with hrc | hrc
    · obtain ⟨r0, hr0, rfl⟩ := List.mem_map.1 hrc
      obtain ⟨h1, h2⟩ := hinv.2 r0 hr0
      rw [holdD r0, holdP r0]
      exact ⟨h1, h2⟩
    · rw [List.mem_singleton.1 hrc, hnewD, hnewP]
      exact ⟨rfl, by simp⟩

/-- Witness for claim C1: a two-row upload is ingested into a sorted,
fully-present table, and a form append on a table with the standard headers
preserves the invariant. -/
theorem ingestion_invariant_witness :
    TableInv 0 1 ⟨["Date", "Price (Per Gram)"], [.dateT, .numT],
      [[.dC 20250116, .nC 10], [.dC 20250117, .nC 11]]⟩ ∧
    TableInv 0 1 ⟨["Date", "Price (Per Gram)", "Trend"], [.dateT, .numT, .objT],
      [[.dC 20250116, .nC 10, .naC], [.dC 20250117, .nC 11, .sC "up"]]⟩ :=
  ⟨ingestion_invariant.1
    ⟨["Date", "Price (Per Gram)"], [.objT, .objT],
      [[.sC "2025-01-17", .sC "11"], [.sC "2025-01-16", .sC "10"]]⟩
    (⟨["Date", "Price (Per Gram)"], [.dateT, .numT],
      [[.dC 20250116, .nC 10], [.dC 20250117, .nC 11]]⟩, 0, 1)
    ⟨⟨["Date", "Price (Per Gram)"], [.dateT, .numT],
      [[.dC 20250117, .nC 11], [.dC 20250116, .nC 10]]⟩, rfl,
      rfl, rfl,
      ⟨[[.dC 20250116, .nC 10], [.dC 20250117, .nC 11]], by decide, by decide, by decide⟩⟩,
   ingestion_invariant.2
    ⟨["Date", "Price (Per Gram)"], [.dateT, .numT], [[.dC 20250116, .nC 10]]⟩
    0 1 20250117 11 "up"
    ⟨["Date", "Price (Per Gram)", "Trend"], [.dateT, .numT, .objT],
      [[.dC 20250116, .nC 10, .naC], [.dC 20250117, .nC 11, .sC "up"]]⟩
    rfl rfl (by decide)
    ⟨0, rfl, rfl, rfl,
      ⟨[[.dC 20250116, .nC 10, .naC], [.dC 20250117, .nC 11, .sC "up"]],
       by decide, by decide, by decide⟩⟩⟩

/-- Counterexample to the append half of claim C1 as stated.  A CSV with
headers `trade date` / `price usd` resolves both roles and is ingested into
a table satisfying the invariant; but the form append writes the new row
under the hardcoded labels `Date` / `Price (Per Gram)`, so `pd.concat`
creates fresh columns and the appended row holds missing values in the
table's resolved Date and PrimaryMetric columns: the sorted, non-null
invariant is broken, not preserved. -/
theorem manual_append_counterexample :
    dateColIdx ["trade date", "price usd"] = some 0 ∧
    priceColIdx ["trade date", "price usd"] = some 1 ∧
    TableInv 0 1 ⟨["trade date", "price usd"], [.dateT, .numT],
      [[.dC 20250101, .nC 10]]⟩ ∧
    ManualAppendR ⟨["trade date", "price usd"], [.dateT, .numT],
      [[.dC 20250101, .nC 10]]⟩ 20250115 95 "up"
      ⟨["trade date", "price usd", "Date", "Price (Per Gram)", "Trend"],
       [.dateT, .numT, .dateT, .numT, .objT],
       [[.naC, .naC, .dC 20250115, .nC 95, .sC "up"],
        [.dC 20250101, .nC 10, .naC, .naC, .naC]]⟩ ∧
    ¬ TableInv 0 1 ⟨["trade date", "price usd", "Date", "Price (Per Gram)", "Trend"],
       [.dateT, .numT, .dateT, .numT, .objT],
       [[.naC, .naC, .dC 20250115, .nC 95, .sC "up"],
        [.dC 20250101, .nC 10, .naC, .naC, .naC]]⟩ :=
  ⟨rfl, rfl, by decide,
   ⟨2, rfl, rfl, rfl,
    ⟨[[.naC, .naC, .dC 20250115, .nC 95, .sC "up"]], by decide, by decide, by decide⟩⟩,
   by decide⟩

/-! ## numpy's argsort quicksort (claim C7)

`sort_values` on a datetime column without missing values reaches
`np.argsort(keys, kind = 'quicksort')`, numpy's introsort for the argsort
table: median-of-3 quicksort on the index array with an explicit stack,
insertion sort for segments of at most 16 elements (`SMALL_QUICKSORT = 15`),
and a heapsort fallback when the depth budget `2 * msb(n)` is exhausted.
The functions below are a step-faithful translation (pointer arithmetic
becomes integer indices; the C scan loops, which rely on pivot sentinels and
never leave the segment on reachable inputs, carry a fuel argument that is
never exhausted on those inputs). -/

def arrGetN (st : Array ℕ) (i : ℤ) : ℕ := st.getD i.toNat 0

def valAt (v : Array ℤ) (st : Array ℕ) (i : ℤ) : ℤ := v.getD (arrGetN st i) 0

def arrSet (st : Array ℕ) (i : ℤ) (x : ℕ) : Array ℕ :=
  if h : i.toNat < st.size then st.set ⟨i.toNat, h⟩ x else st

def swapAt (st : Array ℕ) (i j : ℤ) : Array ℕ :=
  let a := arrGetN st i
  let b := arrGetN st j
  arrSet (arrSet st i b) j a

/-- `do ++pi; while (v[*pi] < vp);` -/
def scanUp : ℕ → Array ℤ → Array ℕ → ℤ → ℤ → ℤ
  | 0, _, _, _, i => i + 1
  | f + 1, v, st, vp, i =>
    if valAt v st (i + 1) < vp then scanUp f v st vp (i + 1) else i + 1

/-- `do --pj; while (vp < v[*pj]);` -/
def scanDown : ℕ → Array ℤ → Array ℕ → ℤ → ℤ → ℤ
  | 0, _, _, _, j => j - 1
  | f + 1, v, st, vp, j =>
    if vp < valAt v st (j - 1) then scanDown f v st vp (j - 1) else j - 1

/-- The partition exchange loop: scan up, scan down, swap until the scans
cross; returns the final `pi`. -/
def partLoop : ℕ → Array ℤ → Array ℕ → ℤ → ℤ → ℤ → Array ℕ × ℤ
  | 0, _, st, _, i, _ => (st, i)
  | f + 1, v, st, vp, i, j =>
    let i2 := scanUp (st.size + 2) v st vp i
    let j2 := scanDown (st.size + 2) v st vp j
    if i2 ≥ j2 then (st, i2)
    else partLoop f v (swapAt st i2 j2) vp i2 j2

/-- One median-of-3 partition step of numpy's `aquicksort` on the segment
`[pl, pr]`: the three-point sort, the pivot parked at `pr - 1`, the exchange
loop, and the final pivot swap.  Returns the pivot position. -/
def npPartition (v : Array ℤ) (st : Array ℕ) (pl pr : ℤ) : Array ℕ × ℤ :=
  let pm := pl + ((pr - pl) / 2)
  let st1 := if valAt v st pm < valAt v st pl then swapAt st pm pl else st
  let st2 := if valAt v st1 pr < valAt v st1 pm then swapAt st1 pr pm else st1
  let st3 := if valAt v st2 pm < valAt v st2 pl then swapAt st2 pm pl else st2
  let vp := valAt v st3 pm
  let st4 := swapAt st3 pm (pr - 1)
  let pp := partLoop (st4.size + 2) v st4 vp pl (pr - 1)
  (swapAt pp.1 pp.2 (pr - 1), pp.2)

/-- The inner shift-and-place loop of the insertion sort. -/
def insShiftPlace : ℕ → Array ℤ → Array ℕ → ℤ → ℕ → ℤ → ℤ → Array ℕ
  | 0, _, st, _, vi, _, j => arrSet st j vi
  | f + 1, v, st, vp, vi, pl, j =>
    if pl < j ∧ vp < v.getD (arrGetN st (j - 1)) 0 then
      insShiftPlace f v (arrSet st j (arrGetN st (j - 1))) vp vi pl (j - 1)
    else arrSet st j vi

/-- Insertion sort of the index segment `[pl, pr]` (stable: the shift uses a
strict comparison). -/
def insOuter : ℕ → Array ℤ → Array ℕ → ℤ → ℤ → ℤ → Array ℕ
  | 0, _, st, _, _, _ => st
  | f + 1, v, st, pl, pr, i =>
    if i ≤ pr then
      let vi := arrGetN st i
      let vp := v.getD vi 0
      insOuter f v (insShiftPlace (st.size + 2) v st vp vi pl i) pl pr (i + 1)
    else st

/-- `a[k]` of numpy's `aheapsort`, whose working array is 1-based from the
segment start. -/
def aGet (st : Array ℕ) (base k : ℤ) : ℕ := arrGetN st (base + k - 1)

def aSet (st : Array ℕ) (base k : ℤ) (x : ℕ) : Array ℕ := arrSet st (base + k - 1) x

/-- The sift-down loop shared by both phases of `aheapsort`. -/
def siftLoop : ℕ → Array ℤ → Array ℕ → ℤ → ℕ → ℤ → ℤ → ℤ → Array ℕ
  | 0, _, st, base, tmp, i, _, _ => aSet st base i tmp
  | f + 1, v, st, base, tmp, i, j, n =>
    if j ≤ n then
      let j2 := if j < n ∧ v.getD (aGet st base j) 0 < v.getD (aGet st base (j + 1)) 0
        then j + 1 else j
      if v.getD tmp 0 < v.getD (aGet st base j2) 0 then
        siftLoop f v (aSet st base i (aGet st base j2)) base tmp j2 (j2 + j2) n
      else aSet st base i tmp
    else aSet st base i tmp

/-- Heapify phase: `for (l = n >> 1; l > 0; --l)`. -/
def heapBuild : ℕ → Array ℤ → Array ℕ → ℤ → ℤ → ℤ → Array ℕ
  | 0, _, st, _, _, _ => st
  | f + 1, v, st, base, l, n =>
    if 0 < l then
      let tmp := aGet st base l
      heapBuild f v (siftLoop (st.size + 2) v st base tmp l (l + l) n) base (l - 1) n
    else st

/-- Extraction phase: `for (; n > 1;)`. -/
def heapExtract : ℕ → Array ℤ → Array ℕ → ℤ → ℤ → Array ℕ
  | 0, _, st, _, _ => st
  | f + 1, v, st, base, n =>
    if 1 < n then
      let tmp := aGet st base n
      let st1 := aSet st base n (aGet st base 1)
      heapExtract f v (siftLoop (st1.size + 2) v st1 base tmp 1 2 (n - 1)) base (n - 1)
    else st

/-- numpy's `aheapsort` on the index segment of length `n` starting at
`pl` — the introsort depth-limit fallback (unreached on every input
evaluated in this file, as the partition count stays far below the budget,
but part of the algorithm). -/
def npAheapsort (v : Array ℤ) (st : Array ℕ) (pl n : ℤ) : Array ℕ :=
  heapExtract (st.size + 2) v (heapBuild (st.size + 2) v st pl (n / 2) n) pl n

def npyGetMsbFuel : ℕ → ℕ → ℕ
  | 0, _ => 0
  | f + 1, n => if n ≤ 1 then 0 else npyGetMsbFuel f (n / 2) + 1

/-- `npy_get_msb`: the index of the highest set bit. -/
def npyGetMsb (n : ℕ) : ℕ := npyGetMsbFuel n n

/-- The driver loop of `aquicksort_`: partition while the segment exceeds
`SMALL_QUICKSORT = 15` elements (heapsort once `depth_limit` goes negative,
the budget being decremented at each partition test), insertion-sort small
segments, continue on the smaller half with the larger one pushed. -/
def aquicksortMain : ℕ → Array ℤ → Array ℕ → List (ℤ × ℤ) → ℤ → ℤ → ℤ → Array ℕ
  | 0, _, st, _, _, _, _ => st
  | f + 1, v, st, stack, pl, pr, depth =>
    if pr - pl > 15 then
      if depth < 0 then
        let st2 := npAheapsort v st pl (pr - pl + 1)
        match stack with
        | [] => st2
        | (l, r) :: rest => aquicksortMain f v st2 rest l r (depth - 1)
      else
        let pp := npPartition v st pl pr
        if pp.2 - pl < pr - pp.2 then
          aquicksortMain f v pp.1 ((pp.2 + 1, pr) :: stack) pl (pp.2 - 1) (depth - 1)
        else
          aquicksortMain f v pp.1 ((pl, pp.2 - 1) :: stack) (pp.2 + 1) pr (depth - 1)
    else
      let st2 := insOuter (st.size + 2) v st pl pr (pl + 1)
      match stack with
      | [] => st2
      | (l, r) :: rest => aquicksortMain f v st2 rest l r depth

/-- `np.argsort(keys, kind = 'quicksort')`. -/
def npArgsort (keys : List ℤ) : List ℕ :=
  (aquicksortMain (4 * keys.length + 16) keys.toArray
    (List.range keys.length).toArray [] 0 ((keys.length : ℤ) - 1)
    (2 * (npyGetMsb keys.length))).toList

/-- `df.sort_values(date_col)` as executed on a datetime key column without
missing values: reorder the rows by the argsort permutation. -/
def sort_values_np (dj : ℕ) (rows : List (List Cell)) : List (List Cell) :=
  (npArgsort (rows.map (rowKey dj))).map (fun i => rows.getD i [])

/-- `process_csv` with the concrete numpy sort — the deterministic
refinement of `ProcessCsvR`. -/
def process_csv_np (raw : Df) : Option (Df × ℕ × ℕ) :=
  match process_csv_prep raw with
  | .error _ => none
  | .ok (t, dj, pj) =>
    some ({ t with rows := sort_values_np dj t.rows }, dj, pj)

/-- First position of a row in a row list. -/
def idxOfRow (r : List Cell) : List (List Cell) → ℕ
  | [] => 0
  | a :: as => if a = r then 0 else idxOfRow r as + 1

/-- Do all pairs of equal-key rows of `out` appear in their `orig` order?
(Rows are identified by value; the inputs tested carry pairwise-distinct
rows.) -/
def stableOnTies (dj : ℕ) (orig out : List (List Cell)) : Bool :=
  (List.range out.length).all fun i =>
    (List.range out.length).all fun j =>
      ! decide (i < j) ||
      ! decide (rowKey dj (out.getD i []) = rowKey dj (out.getD j [])) ||
      decide (idxOfRow (out.getD i []) orig ≤ idxOfRow (out.getD j []) orig)

/-! ## Claim C7 -/

/-- Seventeen rows sharing one date, prices `0 .. 16`: one row beyond
numpy's stable insertion-sort regime (segments of at most 16 elements), so
the first introsort partition runs. -/
def raw17 : Df :=
  { names := ["Date", "Price"]
    dtypes := [.objT, .numT]
    rows := (List.range 17).map (fun k => [.sC "2025-01-16", .nC (k : ℚ)]) }

/-- Counterexample to claim C7 as stated.  On a 17-row table whose dates are
all equal, the `sort_values` at the end of ingestion (numpy's default
quicksort) does not preserve the source order of the equal-date rows: the
median-of-3 introsort partition scrambles them. -/
theorem sort_stability_counterexample :
    ((process_csv_prep raw17).toOption.map
      (fun r => stableOnTies r.2.1 r.1.rows (sort_values_np r.2.1 r.1.rows))) =
      some false := by decide

/-- Claim C7, amended.  The sort at the end of ingestion orders the
surviving rows non-decreasing by date (proved for every input against the
`sort_values` contract), but it is not stable: `sort_values` uses numpy's
default quicksort, whose partition may reorder equal-date rows, as the
concrete 17-row run shows — the output is sorted yet tie order is lost.
(Tables of at most 16 surviving rows fall into numpy's insertion-sort
regime, which does preserve tie order.) -/
theorem sort_tie_behaviour :
    (∀ (raw : Df) (res : Df × ℕ × ℕ), ProcessCsvR raw res →
      SortedByKey res.2.1 res.1.rows) ∧
    ((process_csv_prep raw17).toOption.map
      (fun r => sortedByKeyB r.2.1 (sort_values_np r.2.1 r.1.rows))) = some true ∧
    ((process_csv_prep raw17).toOption.map
      (fun r => stableOnTies r.2.1 r.1.rows (sort_values_np r.2.1 r.1.rows))) ≠
      some true := by
  refine ⟨?_, by decide, by decide⟩
  rintro raw res ⟨t, hok, -, -, hs⟩
  have hrows := process_csv_prep_rows hok
  have hval : ∀ r ∈ t.rows, naKeyRow res.2.1 r = false := by
    intro r hr
    rw [naKeyRow_eq_not_isDateCell, (hrows r hr).2]
    rfl
  exact (sortValuesR_all_valid hval hs).2

/-- Witness for claim C7: a concrete single-row ingestion run is sorted. -/
theorem sort_tie_behaviour_witness :
    SortedByKey 0 [[Cell.dC 20250116, Cell.nC 5]] :=
  sort_tie_behaviour.1
    ⟨["Date", "Price"], [.objT, .objT], [[.sC "2025-01-16", .sC "5"]]⟩
    (⟨["Date", "Price"], [.dateT, .numT], [[.dC 20250116, .nC 5]]⟩, 0, 1)
    ⟨⟨["Date", "Price"], [.dateT, .numT], [[.dC 20250116, .nC 5]]⟩, rfl, rfl, rfl,
      ⟨[[.dC 20250116, .nC 5]], by decide, by decide, by decide⟩⟩

/-! ## CSV export and re-read (claim C9) -/

/-- Digits of a nonnegative integer, least-significant first. -/
def natToRevDigits : ℕ → ℕ → List Char
  | 0, _ => []
  | f + 1, n => if n = 0 then [] else Char.ofNat (48 + n % 10) :: natToRevDigits f (n / 10)

def printNatChars (n : ℕ) : List Char :=
  if n = 0 then ['0'] else (natToRevDigits (n + 1) n).reverse

/-- Zero-padded decimal digits, at least `k` characters long. -/
def printNatPad (k n : ℕ) : List Char :=
  List.replicate (k - (printNatChars n).length) '0' ++ printNatChars n

/-- `str()` of a nonnegative float that is an exact decimal: the digits of
`q * 10^den` with the decimal point inserted `den` places from the right.
(Trailing fractional zeros are not trimmed the way `repr(float)` trims
them; the re-parsed value is identical either way, which is what the
round-trip claim observes.) -/
def insDot (k : ℕ) (ds : List Char) : List Char :=
  ds.take (ds.length - k) ++ '.' :: ds.drop (ds.length - k)

def printPosQ (q : ℚ) : List Char :=
  insDot q.den (printNatPad (q.den + 1) (q.num.toNat * (10 ^ q.den / q.den)))

def printQChars (q : ℚ) : List Char :=
  if q < 0 then '-' :: printPosQ (-q) else printPosQ q

/-- `to_csv` rendering of a datetime cell: ISO `YYYY-MM-DD` (the modelled
dates carry no time of day). -/
def printDateChars (z : ℤ) : List Char :=
  printNatPad 4 (z / 10000).toNat ++
    '-' :: (printNatPad 2 ((z % 10000) / 100).toNat ++
      '-' :: printNatPad 2 (z % 100).toNat)

/-- `to_csv` of one cell; missing values print as the empty field. -/
def printCell : Cell → String
  | .sC s => s
  | .nC q => ⟨printQChars q⟩
  | .dC z => ⟨printDateChars z⟩
  | .naC => ""

/-- `df.to_csv(index = False)` (line 233), as a header list and cell grid
(CSV field quoting round-trips bytes and is left to the byte layer). -/
def exportCsv (df : Df) : List String × List (List String) :=
  (df.names,
   df.rows.map (fun r => (List.range df.names.length).map
     (fun j => printCell (r.getD j .naC))))

/-- `pd.read_csv` on tokenized cells: per-column dtype inference — a column
whose every present cell parses as a number becomes numeric, every other
column stays `object` holding the cell text; empty fields are missing. -/
def readCsv (names : List String) (cells : List (List String)) : Df :=
  { names := names
    dtypes := (List.range names.length).map
      (fun j =>
        if cells.all (fun r => r.getD j "" = "" || (toNumeric (r.getD j "")).isSome)
        then .numT else .objT)
    rows := cells.map (fun r => (List.range names.length).map
      (fun j =>
        if r.getD j "" = "" then .naC
        else if cells.all (fun r => r.getD j "" = "" || (toNumeric (r.getD j "")).isSome)
        then
          match toNumeric (r.getD j "") with
          | some q => .nC q
          | none => .naC
        else .sC (r.getD j ""))) }

/-! ### Idempotence of trimming -/

theorem dropWhile_head_false (p : α → Bool) :
    ∀ (l : List α) (a : α) (as : List α), l.dropWhile p = a :: as → p a = false := by
  intro l
  induction l with
  | nil => intro a as h; simp at h
  | cons c cs ih =>
    intro a as h
    by_cases hc : p c = true
    · rw [List.dropWhile_cons, if_pos hc] at h
      exact ih a as h
    · rw [List.dropWhile_cons, if_neg hc] at h
      injection h with h1 h2
      subst h1
      simpa using hc

theorem exists_append_dropWhile (p : α → Bool) :
    ∀ l : List α, ∃ pre, l = pre ++ l.dropWhile p := by
  intro l
  induction l with
  | nil => exact ⟨[], rfl⟩
  | cons c cs ih =>
    by_cases hc : p c = true
    · obtain ⟨pre, hpre⟩ := ih
      refine ⟨c :: pre, ?_⟩
      rw [List.dropWhile_cons, if_pos hc, List.cons_append, ← hpre]
    · refine ⟨[], ?_⟩
      rw [List.dropWhile_cons, if_neg hc, List.nil_append]

theorem dropWhile_eq_self_of_head (p : α → Bool) (l : List α)
    (h : ∀ a as, l = a :: as → p a = false) : l.dropWhile p = l := by
  cases l with
  | nil => rfl
  | cons a as =>
    rw [List.dropWhile_cons, if_neg]
    simp [h a as rfl]

theorem stripChars_idem (l : List Char) : stripChars (stripChars l) = stripChars l := by
  obtain ⟨pre, hpre⟩ :=
    exists_append_dropWhile isSpaceChar (l.dropWhile isSpaceChar).reverse
  have hXA : l.dropWhile isSpaceChar =
      ((l.dropWhile isSpaceChar).reverse.dropWhile isSpaceChar).reverse ++ pre.reverse := by
    have h := congrArg List.reverse hpre
    rw [List.reverse_append] at h
    simpa using h
  have hdb : (((l.dropWhile isSpaceChar).reverse.dropWhile
      isSpaceChar).reverse).dropWhile isSpaceChar =
      ((l.dropWhile isSpaceChar).reverse.dropWhile isSpaceChar).reverse := by
    apply dropWhile_eq_self_of_head
    intro a as hcons
    apply dropWhile_head_false isSpaceChar l a (as ++ pre.reverse)
    rw [hXA, hcons, List.cons_append]
  show ((((l.dropWhile isSpaceChar).reverse.dropWhile
      isSpaceChar).reverse.dropWhile isSpaceChar).reverse.dropWhile isSpaceChar).reverse =
    ((l.dropWhile isSpaceChar).reverse.dropWhile isSpaceChar).reverse
  rw [hdb, List.reverse_reverse]
  rw [dropWhile_eq_self_of_head isSpaceChar _ (fun a as hcons =>
    dropWhile_head_false isSpaceChar (l.dropWhile isSpaceChar).reverse a as hcons)]

theorem strStrip_idem (s : String) : strStrip (strStrip s) = strStrip s := by
  show (⟨stripChars (stripChars s.data)⟩ : String) = ⟨stripChars s.data⟩
  exact congrArg String.mk (stripChars_idem s.data)

theorem map_strStrip_idem (names : List String) :
    (names.map strStrip).map strStrip = names.map strStrip := by
  rw [List.map_map]
  exact List.map_congr_left (fun s _ => strStrip_idem s)

/-! ### Digit strings round-trip -/

theorem digitVal_lt_ten {c : Char} (h : isDigitChar c = true) : digitVal c < 10 := by
  unfold isDigitChar at h
  simp only [Bool.and_eq_true, decide_eq_true_eq] at h
  unfold digitVal
  have h0 : '0'.toNat = 48 := rfl
  omega

theorem foldl_digits_acc :
    ∀ (l : List Char) (a : ℕ),
      l.foldl (fun a c => 10 * a + digitVal c) a = a * 10 ^ l.length + digitsToNat l := by
  intro l
  induction l with
  | nil => intro a; simp [digitsToNat]
  | cons c cs ih =>
    intro a
    show cs.foldl _ (10 * a + digitVal c) = _
    rw [ih (10 * a + digitVal c)]
    have h2 : digitsToNat (c :: cs) = (10 * 0 + digitVal c) * 10 ^ cs.length +
        digitsToNat cs := by
      show cs.foldl _ (10 * 0 + digitVal c) = _
      rw [ih (10 * 0 + digitVal c)]
    rw [h2, List.length_cons]
    ring

theorem digitsToNat_append (A B : List Char) :
    digitsToNat (A ++ B) = digitsToNat A * 10 ^ B.length + digitsToNat B := by
  unfold digitsToNat
  rw [List.foldl_append]
  exact foldl_digits_acc B _

theorem digitsToNat_cons (c : Char) (cs : List Char) :
    digitsToNat (c :: cs) = digitVal c * 10 ^ cs.length + digitsToNat cs := by
  have h := digitsToNat_append [c] cs
  simpa [digitsToNat] using h

theorem digitsToNat_lt {l : List Char} (h : l.all isDigitChar = true) :
    digitsToNat l < 10 ^ l.length := by
  induction l with
  | nil => simp [digitsToNat]
  | cons c cs ih =>
    simp only [List.all_cons, Bool.and_eq_true] at h
    have h1 := digitVal_lt_ten h.1
    have h2 := ih h.2
    rw [digitsToNat_cons, List.length_cons]
    have hp : 0 < 10 ^ cs.length := Nat.pos_pow_of_pos _ (by norm_num)
    have : 10 ^ (cs.length + 1) = 10 * 10 ^ cs.length := by ring
    nlinarith

theorem digitsToNat_replicate_zero (m : ℕ) (l : List Char) :
    digitsToNat (List.replicate m '0' ++ l) = digitsToNat l := by
  induction m with
  | zero => rfl
  | succ k ih =>
    rw [List.replicate_succ, List.cons_append, digitsToNat_cons, ih]
    have : digitVal '0' = 0 := rfl
    simp [this]

def revDigitsToNat : List Char → ℕ
  | [] => 0
  | c :: cs => digitVal c + 10 * revDigitsToNat cs

theorem digitsToNat_reverse (l : List Char) :
    digitsToNat l.reverse = revDigitsToNat l := by
  induction l with
  | nil => rfl
  | cons c cs ih =>
    rw [List.reverse_cons, digitsToNat_append, ih]
    have h1 : digitsToNat [c] = digitVal c := by simp [digitsToNat]
    have h2 : ([c] : List Char).length = 1 := rfl
    rw [h1, h2, revDigitsToNat]
    ring

theorem digit_char_spec : ∀ m : ℕ, m < 10 →
    digitVal (Char.ofNat (48 + m)) = m ∧ isDigitChar (Char.ofNat (48 + m)) = true := by
  intro m hm
  interval_cases m <;> exact ⟨by decide, by decide⟩

theorem natToRevDigits_spec : ∀ (f n : ℕ), n ≤ f →
    revDigitsToNat (natToRevDigits f n) = n ∧
      (natToRevDigits f n).all isDigitChar = true := by
  intro f
  induction f with
  | zero =>
    intro n hn
    interval_cases n
    exact ⟨rfl, rfl⟩
  | succ f ih =>
    intro n hn
    by_cases h0 : n = 0
    · subst h0; exact ⟨rfl, rfl⟩
    · have hdiv : n / 10 ≤ f := by
        have := Nat.div_lt_self (Nat.pos_of_ne_zero h0) (by norm_num : (1:ℕ) < 10)
        omega
      obtain ⟨ih1, ih2⟩ := ih (n / 10) hdiv
      obtain ⟨hd1, hd2⟩ := digit_char_spec (n % 10) (Nat.mod_lt _ (by norm_num))
      unfold natToRevDigits
      rw [if_neg h0]
      constructor
      · rw [revDigitsToNat, hd1, ih1]
        omega
      · simp [List.all_cons, hd2, ih2]

theorem printNatChars_spec (n : ℕ) :
    digitsToNat (printNatChars n) = n ∧ (printNatChars n).all isDigitChar = true ∧
      printNatChars n ≠ [] := by
  unfold printNatChars
  by_cases h0 : n = 0
  · subst h0
    exact ⟨rfl, rfl, by decide⟩
  · rw [if_neg h0]
    obtain ⟨h1, h2⟩ := natToRevDigits_spec (n + 1) n (by omega)
    refine ⟨?_, ?_, ?_⟩
    · rw [digitsToNat_reverse]
      exact h1
    · simpa using h2
    · intro hc
      rw [List.reverse_eq_nil_iff] at hc
      rw [hc] at h1
      exact h0 h1.symm

theorem natToRevDigits_length : ∀ (f n k : ℕ), n < 10 ^ k →
    (natToRevDigits f n).length ≤ k := by
  intro f
  induction f with
  | zero => intro n k _; simp [natToRevDigits]
  | succ f ih =>
    intro n k hn
    by_cases h0 : n = 0
    · subst h0; simp [natToRevDigits]
    · unfold natToRevDigits
      rw [if_neg h0]
      cases k with
      | zero => simp at hn; omega
      | succ k' =>
        have hd : n / 10 < 10 ^ k' := by
          rw [Nat.div_lt_iff_lt_mul (by norm_num : (0:ℕ) < 10)]
          calc n < 10 ^ (k' + 1) := hn
          _ = 10 ^ k' * 10 := by ring
        simpa using ih (n / 10) k' hd

theorem printNatChars_length {n k : ℕ} (hk : 1 ≤ k) (hn : n < 10 ^ k) :
    (printNatChars n).length ≤ k := by
  unfold printNatChars
  by_cases h0 : n = 0
  · subst h0; simpa using hk
  · rw [if_neg h0, List.length_reverse]
    exact natToRevDigits_length _ n k hn

theorem printNatPad_spec (k n : ℕ) :
    digitsToNat (printNatPad k n) = n ∧ (printNatPad k n).all isDigitChar = true := by
  unfold printNatPad
  constructor
  · rw [digitsToNat_replicate_zero]
    exact (printNatChars_spec n).1
  · rw [List.all_append, Bool.and_eq_true]
    constructor
    · rw [List.all_eq_true]
      intro c hc
      rw [List.eq_of_mem_replicate hc]
      decide
    · exact (printNatChars_spec n).2.1

theorem printNatPad_length {k n : ℕ} (hk : 1 ≤ k) (hn : n < 10 ^ k) :
    (printNatPad k n).length = k := by
  unfold printNatPad
  rw [List.length_append, List.length_replicate]
  have h1 := printNatChars_length hk hn
  have h2 : 1 ≤ (printNatChars n).length :=
    List.length_pos.2 (printNatChars_spec n).2.2
  omega

theorem printNatPad_length_ge (k n : ℕ) : k ≤ (printNatPad k n).length := by
  unfold printNatPad
  rw [List.length_append, List.length_replicate]
  omega

theorem printNatPad_ne_nil (k n : ℕ) : printNatPad k n ≠ [] := by
  unfold printNatPad
  intro h
  rw [List.append_eq_nil] at h
  exact (printNatChars_spec n).2.2 h.2

/-! ### Date strings round-trip -/

theorem not_space_of_digit {c : Char} (h : isDigitChar c = true) :
    isSpaceChar c = false := by
  by_contra hs
  have hs' : isSpaceChar c = true := by
    cases hcs : isSpaceChar c
    · exact absurd hcs hs
    · rfl
  unfold isSpaceChar at hs'
  simp only [Bool.or_eq_true, decide_eq_true_eq] at hs'
  unfold isDigitChar at h
  simp only [Bool.and_eq_true, decide_eq_true_eq] at h
  rcases hs' with ((((h1 | h1) | h1) | h1) | h1) | h1 <;> (subst h1; revert h; decide)

theorem stripChars_eq_self {l : List Char} (h : ∀ c ∈ l, isSpaceChar c = false) :
    stripChars l = l := by
  unfold stripChars
  have h1 : l.dropWhile isSpaceChar = l := by
    cases l with
    | nil => rfl
    | cons a as => rw [List.dropWhile_cons, if_neg (by simp [h a (by simp)])]
  rw [h1]
  have h2 : l.reverse.dropWhile isSpaceChar = l.reverse := by
    cases hr : l.reverse with
    | nil => rfl
    | cons a as =>
      rw [List.dropWhile_cons, if_neg]
      have ha : a ∈ l := by
        rw [← List.mem_reverse, hr]
        simp
      simp [h a ha]
  rw [h2, List.reverse_reverse]

theorem splitDash_cons_dash (cs : List Char) :
    splitDash ('-' :: cs) = [] :: splitDash cs := by
  rw [splitDash, if_pos rfl]

theorem splitDash_cons_ne (c : Char) (cs : List Char) (hc : ¬ c = '-') :
    splitDash (c :: cs) =
      match splitDash cs with
      | [] => [[c]]
      | h :: t => (c :: h) :: t := by
  rw [splitDash, if_neg hc]

theorem splitDash_no_dash : ∀ A : List Char, '-' ∉ A → splitDash A = [A] := by
  intro A
  induction A with
  | nil => intro _; rfl
  | cons a as ih =>
    intro h
    have ha : ¬ a = '-' := fun hc => h (by simp [hc])
    have has : '-' ∉ as := fun hc => h (by simp [hc])
    rw [splitDash_cons_ne a as ha, ih has]

theorem splitDash_append : ∀ (A rest : List Char), '-' ∉ A →
    splitDash (A ++ '-' :: rest) = A :: splitDash rest := by
  intro A
  induction A with
  | nil =>
    intro rest _
    exact splitDash_cons_dash rest
  | cons a as ih =>
    intro rest hA
    have ha : ¬ a = '-' := fun hc => hA (by simp [hc])
    have has : '-' ∉ as := fun hc => hA (by simp [hc])
    show splitDash (a :: (as ++ '-' :: rest)) = (a :: as) :: splitDash rest
    rw [splitDash_cons_ne _ _ ha, ih rest has]

theorem dash_not_mem_pad (k n : ℕ) : '-' ∉ printNatPad k n := by
  intro hmem
  have h := List.all_eq_true.1 (printNatPad_spec k n).2 _ hmem
  exact absurd h (by decide)

/-- The calendar codes producible by the modelled `pd.to_datetime`. -/
def dateOK (z : ℤ) : Prop :=
  ∃ y m d : ℕ, 1 ≤ y ∧ y ≤ 9999 ∧ 1 ≤ m ∧ m ≤ 12 ∧ 1 ≤ d ∧ d ≤ 31 ∧
    z = dateCode y m d

theorem parseDateChars_dateOK {l : List Char} {z : ℤ}
    (h : parseDateChars l = some z) : dateOK z := by
  unfold parseDateChars at h
  split at h
  · rename_i ys ms ds heq
    split at h
    · rename_i hcond
      injection h with h
      simp only [Bool.and_eq_true, decide_eq_true_eq] at hcond
      have hl1 : ys.length = 4 := by tauto
      have hd1 : ys.all isDigitChar = true := by tauto
      have hlt := digitsToNat_lt hd1
      rw [hl1] at hlt
      have hlt' : digitsToNat ys < 10000 := by simpa using hlt
      refine ⟨digitsToNat ys, digitsToNat ms, digitsToNat ds, ?_, ?_, ?_, ?_, ?_, ?_,
        h.symm⟩ <;> omega
    · exact absurd h (by simp)
  · exact absurd h (by simp)

theorem parseDate_printDate {z : ℤ} (h : dateOK z) :
    parseDateChars (printDateChars z) = some z := by
  obtain ⟨y, m, d, hy1, hy2, hm1, hm2, hd1, hd2, rfl⟩ := h
  have hey : dateCode y m d / 10000 = (y : ℤ) := by
    unfold dateCode
    omega
  have hem : dateCode y m d % 10000 / 100 = (m : ℤ) := by
    unfold dateCode
    omega
  have hed : dateCode y m d % 100 = (d : ℤ) := by
    unfold dateCode
    omega
  have hpy : (dateCode y m d / 10000).toNat = y := by rw [hey]; exact Int.toNat_natCast y
  have hpm : (dateCode y m d % 10000 / 100).toNat = m := by
    rw [hem]; exact Int.toNat_natCast m
  have hpd : (dateCode y m d % 100).toNat = d := by rw [hed]; exact Int.toNat_natCast d
  unfold printDateChars
  rw [hpy, hpm, hpd]
  have hlen4 : (printNatPad 4 y).length = 4 :=
    printNatPad_length (by norm_num) (by omega)
  have hlenm : (printNatPad 2 m).length = 2 :=
    printNatPad_length (by norm_num) (by omega)
  have hlend : (printNatPad 2 d).length = 2 :=
    printNatPad_length (by norm_num) (by omega)
  have hnospace : ∀ c ∈ printNatPad 4 y ++
      '-' :: (printNatPad 2 m ++ '-' :: printNatPad 2 d), isSpaceChar c = false := by
    intro c hc
    simp only [List.mem_append, List.mem_cons] at hc
    rcases hc with hc | hc | hc | hc | hc
    · exact not_space_of_digit (List.all_eq_true.1 (printNatPad_spec 4 y).2 _ hc)
    · subst hc; decide
    · exact not_space_of_digit (List.all_eq_true.1 (printNatPad_spec 2 m).2 _ hc)
    · subst hc; decide
    · exact not_space_of_digit (List.all_eq_true.1 (printNatPad_spec 2 d).2 _ hc)
  unfold parseDateChars
  rw [stripChars_eq_self hnospace, splitDash_append _ _ (dash_not_mem_pad 4 y),
    splitDash_append _ _ (dash_not_mem_pad 2 m),
    splitDash_no_dash _ (dash_not_mem_pad 2 d)]
  simp only [hlen4, hlenm, hlend, (printNatPad_spec 4 y).1, (printNatPad_spec 4 y).2,
    (printNatPad_spec 2 m).1, (printNatPad_spec 2 m).2, (printNatPad_spec 2 d).1,
    (printNatPad_spec 2 d).2]
  rw [if_pos]
  simp only [Bool.and_eq_true, decide_eq_true_eq, eq_self_iff_true, true_and, and_true]
  omega

/-! ### Decimal strings round-trip -/

theorem splitAtDot_no_dot : ∀ l : List Char, '.' ∉ l → splitAtDot l = (l, none) := by
  intro l
  induction l with
  | nil => intro _; rfl
  | cons a as ih =>
    intro h
    have ha : ¬ a = '.' := fun hc => h (by simp [hc])
    have has : '.' ∉ as := fun hc => h (by simp [hc])
    rw [splitAtDot, if_neg ha, ih has]

theorem splitAtDot_append : ∀ (A B : List Char), '.' ∉ A →
    splitAtDot (A ++ '.' :: B) = (A, some B) := by
  intro A B
  induction A with
  | nil => intro _; rw [List.nil_append, splitAtDot, if_pos rfl]
  | cons a as ih =>
    intro hA
    have ha : ¬ a = '.' := fun hc => hA (by simp [hc])
    have has : '.' ∉ as := fun hc => hA (by simp [hc])
    rw [List.cons_append, splitAtDot, if_neg ha, ih has]

theorem dot_not_mem_pad (k n : ℕ) : '.' ∉ printNatPad k n := by
  intro hmem
  have h := List.all_eq_true.1 (printNatPad_spec k n).2 _ hmem
  exact absurd h (by decide)

theorem all_take (p : α → Bool) (l : List α) (n : ℕ) (h : l.all p = true) :
    (l.take n).all p = true := by
  rw [List.all_eq_true] at h ⊢
  exact fun c hc => h c (List.mem_of_mem_take hc)

theorem all_drop (p : α → Bool) (l : List α) (n : ℕ) (h : l.all p = true) :
    (l.drop n).all p = true := by
  rw [List.all_eq_true] at h ⊢
  exact fun c hc => h c (List.mem_of_mem_drop hc)

theorem parseUnsignedDec_insDot (k : ℕ) (ds : List Char)
    (hall : ds.all isDigitChar = true) (hlen : k + 1 ≤ ds.length) :
    parseUnsignedDec (insDot k ds) =
      some ((digitsToNat (ds.take (ds.length - k)) : ℚ) +
        (digitsToNat (ds.drop (ds.length - k)) : ℚ) / (10 : ℚ) ^ k) := by
  have hnotdot : '.' ∉ ds.take (ds.length - k) := fun hmem =>
    absurd (List.all_eq_true.1 hall _ (List.mem_of_mem_take hmem)) (by decide)
  have hdl : (ds.drop (ds.length - k)).length = k := by
    rw [List.length_drop]; omega
  unfold insDot
  simp only [parseUnsignedDec, splitAtDot_append _ _ hnotdot]
  rw [if_pos]
  · rw [hdl]
  · have h1 : ds.take (ds.length - k) ≠ [] := by
      intro hnil
      have h2 := congrArg List.length hnil
      rw [List.length_take] at h2
      simp only [List.length_nil] at h2
      omega
    have h2 := all_take isDigitChar ds (ds.length - k) hall
    have h3 := all_drop isDigitChar ds (ds.length - k) hall
    simp [h1, h2, h3]

theorem take_drop_value (k : ℕ) (ds : List Char) (h : k ≤ ds.length) :
    digitsToNat (ds.take (ds.length - k)) * 10 ^ k +
      digitsToNat (ds.drop (ds.length - k)) = digitsToNat ds := by
  conv_rhs => rw [← List.take_append_drop (ds.length - k) ds]
  rw [digitsToNat_append, List.length_drop]
  have he : ds.length - (ds.length - k) = k := by omega
  rw [he]

theorem rat_decimal_eq (q : ℚ) (T D k : ℕ) (h0 : 0 ≤ q)
    (hkey : (T * 10 ^ k + D) * q.den = q.num.toNat * 10 ^ k) :
    (T : ℚ) + (D : ℚ) / (10 : ℚ) ^ k = q := by
  have hden0 : ((q.den : ℚ)) ≠ 0 := by exact_mod_cast q.den_nz
  have hqn : ((q.num.toNat : ℤ)) = q.num := Int.toNat_of_nonneg (Rat.num_nonneg.2 h0)
  have hqn2 : ((q.num.toNat : ℚ)) = (q.num : ℚ) := by exact_mod_cast hqn
  have hq : q * (q.den : ℚ) = (q.num : ℚ) :=
    ((div_eq_iff hden0).1 (Rat.num_div_den q)).symm
  have key3 := congrArg (fun n : ℕ => (n : ℚ)) hkey
  push_cast at key3
  rw [hqn2, ← hq] at key3
  have hP0 : ((10 : ℚ) ^ k) ≠ 0 := by positivity
  have key4 : ((T : ℚ) * 10 ^ k + (D : ℚ)) * (q.den : ℚ) = (q * 10 ^ k) * q.den := by
    linear_combination key3
  have key5 := mul_right_cancel₀ hden0 key4
  field_simp
  linear_combination key5

theorem printPosQ_parse (q : ℚ) (h0 : 0 ≤ q) (hd : q.den ∣ 10 ^ q.den) :
    parseUnsignedDec (printPosQ q) = some q := by
  have hall := (printNatPad_spec (q.den + 1) (q.num.toNat * (10 ^ q.den / q.den))).2
  have hval := (printNatPad_spec (q.den + 1) (q.num.toNat * (10 ^ q.den / q.den))).1
  have hlen := printNatPad_length_ge (q.den + 1) (q.num.toNat * (10 ^ q.den / q.den))
  unfold printPosQ
  rw [parseUnsignedDec_insDot q.den _ hall hlen]
  congr 1
  have key : digitsToNat ((printNatPad (q.den + 1)
        (q.num.toNat * (10 ^ q.den / q.den))).take
          ((printNatPad (q.den + 1) (q.num.toNat * (10 ^ q.den / q.den))).length
            - q.den)) * 10 ^ q.den +
      digitsToNat ((printNatPad (q.den + 1)
        (q.num.toNat * (10 ^ q.den / q.den))).drop
          ((printNatPad (q.den + 1) (q.num.toNat * (10 ^ q.den / q.den))).length
            - q.den)) = q.num.toNat * (10 ^ q.den / q.den) := by
    rw [take_drop_value _ _ (by omega), hval]
  have key2 : (digitsToNat ((printNatPad (q.den + 1)
        (q.num.toNat * (10 ^ q.den / q.den))).take
          ((printNatPad (q.den + 1) (q.num.toNat * (10 ^ q.den / q.den))).length
            - q.den)) * 10 ^ q.den +
      digitsToNat ((printNatPad (q.den + 1)
        (q.num.toNat * (10 ^ q.den / q.den))).drop
          ((printNatPad (q.den + 1) (q.num.toNat * (10 ^ q.den / q.den))).length
            - q.den))) * q.den = q.num.toNat * 10 ^ q.den := by
    rw [key, Nat.mul_assoc, Nat.div_mul_cancel hd]
  exact rat_decimal_eq q _ _ _ h0 key2

theorem printPosQ_cons (q : ℚ) :
    ∃ c cs, printPosQ q = c :: cs ∧ isDigitChar c = true := by
  unfold printPosQ insDot
  set ds := printNatPad (q.den + 1) (q.num.toNat * (10 ^ q.den / q.den)) with hds
  have hlen := printNatPad_length_ge (q.den + 1) (q.num.toNat * (10 ^ q.den / q.den))
  have hall := (printNatPad_spec (q.den + 1) (q.num.toNat * (10 ^ q.den / q.den))).2
  have hpos : 0 < (ds.take (ds.length - q.den)).length := by
    rw [List.length_take]
    rw [← hds] at hlen
    omega
  obtain ⟨c, cs, hcc⟩ := List.exists_cons_of_ne_nil (List.length_pos.1 hpos)
  refine ⟨c, cs ++ '.' :: ds.drop (ds.length - q.den), ?_, ?_⟩
  · rw [hcc]
    rfl
  · have hc : c ∈ ds := List.mem_of_mem_take (hcc ▸ List.mem_cons_self c cs)
    exact List.all_eq_true.1 hall _ hc

theorem toNumericChars_printQ (q : ℚ) (hd : q.den ∣ 10 ^ q.den) :
    toNumericChars (printQChars q) = some q := by
  by_cases hneg : q < 0
  · unfold printQChars
    rw [if_pos hneg]
    simp only [toNumericChars]
    rw [if_pos trivial]
    have hdneg : (-q).den ∣ 10 ^ (-q).den := by
      rw [Rat.den_neg_eq_den]
      exact hd
    have h1 : parseUnsignedDec (printPosQ (-q)) = some (-q) :=
      printPosQ_parse (-q) (by linarith) hdneg
    rw [h1]
    simp
  · unfold printQChars
    rw [if_neg hneg]
    obtain ⟨c, cs, hcons, hdig⟩ := printPosQ_cons q
    rw [hcons]
    simp only [toNumericChars]
    rw [if_neg, if_neg]
    · rw [← hcons, printPosQ_parse q (not_lt.1 hneg) hd]
    · intro hc
      subst hc
      revert hdig
      decide
    · intro hc
      subst hc
      revert hdig
      decide

theorem parseUnsignedDec_den {l : List Char} {q : ℚ}
    (h : parseUnsignedDec l = some q) : ∃ m, q.den ∣ 10 ^ m := by
  unfold parseUnsignedDec at h
  split at h
  · split at h
    · injection h with h
      refine ⟨0, ?_⟩
      rw [← h]
      simp
    · exact absurd h (by simp)
  · rename_i ip fp heq
    split at h
    · injection h with h
      refine ⟨fp.length, ?_⟩
      rw [← h]
      have he : (digitsToNat ip : ℚ) + (digitsToNat fp : ℚ) / 10 ^ fp.length
          = (((digitsToNat ip * 10 ^ fp.length + digitsToNat fp : ℕ) : ℤ) : ℚ)
            / (((10 ^ fp.length : ℕ) : ℤ) : ℚ) := by
        have hP0 : ((10 : ℚ) ^ fp.length) ≠ 0 := by positivity
        push_cast
        field_simp
      rw [he, ← Rat.divInt_eq_div]
      exact_mod_cast Rat.den_dvd
        ((digitsToNat ip * 10 ^ fp.length + digitsToNat fp : ℕ) : ℤ)
        ((10 ^ fp.length : ℕ) : ℤ)
    · exact absurd h (by simp)

theorem dvd_ten_pow_self {d m : ℕ} (hd0 : d ≠ 0) (h : d ∣ 10 ^ m) : d ∣ 10 ^ d := by
  have hfac : 2 ^ d.factorization 2 * (d / 2 ^ d.factorization 2) = d :=
    Nat.ordProj_mul_ordCompl_eq_self d 2
  have hc2 : ¬ 2 ∣ d / 2 ^ d.factorization 2 :=
    Nat.not_dvd_ordCompl Nat.prime_two hd0
  have hcd : d / 2 ^ d.factorization 2 ∣ d := Nat.ordCompl_dvd d 2
  have hcop : Nat.Coprime 2 (d / 2 ^ d.factorization 2) :=
    (Nat.Prime.coprime_iff_not_dvd Nat.prime_two).2 hc2
  have h25 : d / 2 ^ d.factorization 2 ∣ 2 ^ m * 5 ^ m := by
    have h10 : (10 : ℕ) ^ m = 2 ^ m * 5 ^ m := by rw [← Nat.mul_pow]
    rw [← h10]
    exact dvd_trans hcd h
  have h5 : d / 2 ^ d.factorization 2 ∣ 5 ^ m :=
    Nat.Coprime.dvd_of_dvd_mul_left (Nat.Coprime.pow_right m hcop.symm) h25
  obtain ⟨b, -, hb⟩ := (Nat.dvd_prime_pow (by norm_num)).1 h5
  have hdpos : 0 < d := Nat.pos_of_ne_zero hd0
  have h2d : 2 ^ d.factorization 2 ∣ d := Nat.ordProj_dvd d 2
  have ha_le : d.factorization 2 ≤ d := by
    have h1 : 2 ^ d.factorization 2 ≤ d := Nat.le_of_dvd hdpos h2d
    have h2 := Nat.lt_two_pow (d.factorization 2)
    omega
  have hb_le : b ≤ d := by
    have h1 : 5 ^ b ≤ d := Nat.le_of_dvd hdpos (hb ▸ hcd)
    have h2 := Nat.lt_two_pow b
    have h3 : (2 : ℕ) ^ b ≤ 5 ^ b := Nat.pow_le_pow_left (by norm_num) b
    omega
  have h10d : (10 : ℕ) ^ d = 2 ^ d * 5 ^ d := by rw [← Nat.mul_pow]
  rw [h10d]
  conv_lhs => rw [← hfac, hb]
  exact mul_dvd_mul (pow_dvd_pow 2 ha_le) (pow_dvd_pow 5 hb_le)

theorem toNumericChars_den {l : List Char} {q : ℚ}
    (h : toNumericChars l = some q) : q.den ∣ 10 ^ q.den := by
  have hden0 : q.den ≠ 0 := q.den_nz
  unfold toNumericChars at h
  split at h
  · obtain ⟨m, hm⟩ := parseUnsignedDec_den h
    exact dvd_ten_pow_self hden0 hm
  · rename_i c rest
    split at h
    · cases hp : parseUnsignedDec rest with
      | none => rw [hp] at h; exact absurd h (by simp)
      | some q' =>
        rw [hp] at h
        simp only [Option.map_some'] at h
        injection h with h
        obtain ⟨m, hm⟩ := parseUnsignedDec_den hp
        rw [← h, Rat.den_neg_eq_den] at hden0 ⊢
        exact dvd_ten_pow_self hden0 (dvd_ten_pow_self q'.den_nz hm)
    · split at h
      · obtain ⟨m, hm⟩ := parseUnsignedDec_den h
        exact dvd_ten_pow_self hden0 hm
      · obtain ⟨m, hm⟩ := parseUnsignedDec_den h
        exact dvd_ten_pow_self hden0 hm

/-! ### List access helpers -/

theorem getD_range (n j : ℕ) (h : j < n) : (List.range n).getD j 0 = j := by
  rw [List.getD_eq_getElem _ _ (by simpa using h)]
  simp

theorem getD_map_range (f : ℕ → α) (n j : ℕ) (d : α) (h : j < n) :
    ((List.range n).map f).getD j d = f j := by
  rw [getD_map_of_lt f d 0 _ _ (by simpa using h), getD_range n j h]

theorem modifyAt_length (f : α → α) : ∀ (l : List α) (j : ℕ),
    (modifyAt f j l).length = l.length := by
  intro l
  induction l with
  | nil => intro j; cases j <;> rfl
  | cons a as ih =>
    intro j
    cases j with
    | zero => rfl
    | succ j' =>
      show (a :: modifyAt f j' as).length = (a :: as).length
      simp [ih j']

theorem getD_modifyAt_ne (f : α → α) (d : α) :
    ∀ (l : List α) (i j : ℕ), i ≠ j → (modifyAt f j l).getD i d = l.getD i d := by
  intro l
  induction l with
  | nil => intro i j _; cases j <;> rfl
  | cons a as ih =>
    intro i j hij
    cases j with
    | zero =>
      cases i with
      | zero => exact absurd rfl hij
      | succ i' => rfl
    | succ j' =>
      cases i with
      | zero => rfl
      | succ i' =>
        show (modifyAt f j' as).getD i' d = as.getD i' d
        exact ih i' j' (by omega)

theorem getD_set_self (a d : α) : ∀ (l : List α) (i : ℕ), i < l.length →
    (l.set i a).getD i d = a := by
  intro l
  induction l with
  | nil => intro i hi; simp at hi
  | cons b bs ih =>
    intro i hi
    cases i with
    | zero => rfl
    | succ i' => exact ih i' (by simpa using hi)

theorem getD_set_ne (a d : α) : ∀ (l : List α) (i j : ℕ), i ≠ j →
    (l.set j a).getD i d = l.getD i d := by
  intro l
  induction l with
  | nil => intro i j _; rfl
  | cons b bs ih =>
    intro i j hij
    cases j with
    | zero =>
      cases i with
      | zero => exact absurd rfl hij
      | succ i' => rfl
    | succ j' =>
      cases i with
      | zero => rfl
      | succ i' => exact ih i' j' (by omega)

theorem list2_ext (d : α) : ∀ (l1 l2 : List α), l1.length = 2 → l2.length = 2 →
    l1.getD 0 d = l2.getD 0 d → l1.getD 1 d = l2.getD 1 d → l1 = l2 := by
  intro l1 l2 h1 h2 e0 e1
  obtain ⟨a, b, rfl⟩ := List.length_eq_two.1 h1
  obtain ⟨c, e, rfl⟩ := List.length_eq_two.1 h2
  simp only [List.getD_cons_zero, List.getD_cons_succ] at e0 e1
  rw [e0, e1]

theorem df_ext {a b : Df} (h1 : a.names = b.names) (h2 : a.dtypes = b.dtypes)
    (h3 : a.rows = b.rows) : a = b := by
  cases a
  cases b
  simp_all

/-! ### Shape of the `read_csv` frame -/

theorem readCsv_names (ns : List String) (cs : List (List String)) :
    (readCsv ns cs).names = ns := rfl

/-- The provenance of one `read_csv` cell: field text, a number produced by
the numeric parser, or a missing value. -/
def CellFromRead (c : Cell) : Prop :=
  (∃ s, c = .sC s) ∨ (∃ q, c = .nC q ∧ ∃ s, toNumeric s = some q) ∨ c = .naC

theorem readCsv_cell_shape (ns : List String) (cs : List (List String)) :
    ∀ r ∈ (readCsv ns cs).rows, ∀ j, CellFromRead (r.getD j .naC) := by
  intro r hr j
  obtain ⟨row, -, rfl⟩ := List.mem_map.1 hr
  by_cases hj : j < ns.length
  · rw [getD_map_range _ _ _ _ hj]
    split
    · exact Or.inr (Or.inr rfl)
    · split
      · split
        · rename_i q hq
          exact Or.inr (Or.inl ⟨q, rfl, _, hq⟩)
        · exact Or.inr (Or.inr rfl)
      · exact Or.inl ⟨_, rfl⟩
  · rw [List.getD_eq_default]
    · exact Or.inr (Or.inr rfl)
    · simp
      omega

theorem readCsv_row_length (ns : List String) (cs : List (List String)) :
    ∀ r ∈ (readCsv ns cs).rows, r.length = ns.length := by
  intro r hr
  obtain ⟨row, -, rfl⟩ := List.mem_map.1 hr
  simp

theorem readCsv_dtypes_length (ns : List String) (cs : List (List String)) :
    (readCsv ns cs).dtypes.length = ns.length := by
  simp [readCsv]

theorem readCsv_dtypes_getD (ns : List String) (cs : List (List String)) (j : ℕ)
    (hj : j < ns.length) :
    (readCsv ns cs).dtypes.getD j .objT =
      (if cs.all (fun r => r.getD j "" = "" || (toNumeric (r.getD j "")).isSome)
       then Dtype.numT else .objT) := by
  have h : (readCsv ns cs).dtypes = (List.range ns.length).map
      (fun j => if cs.all (fun r => r.getD j "" = "" || (toNumeric (r.getD j "")).isSome)
        then Dtype.numT else .objT) := rfl
  rw [h, getD_map_range _ _ _ _ hj]

theorem readCsv_numT_cell (ns : List String) (cs : List (List String)) (j : ℕ)
    (hj : j < ns.length)
    (hnum : (readCsv ns cs).dtypes.getD j .objT = .numT) :
    ∀ r ∈ (readCsv ns cs).rows,
      (∃ q, r.getD j .naC = .nC q ∧ ∃ s, toNumeric s = some q) ∨
        r.getD j .naC = .naC := by
  intro r hr
  obtain ⟨row, -, rfl⟩ := List.mem_map.1 hr
  rw [getD_map_range _ _ _ _ hj]
  rw [readCsv_dtypes_getD ns cs j hj] at hnum
  split at hnum
  · rename_i hcond
    simp only [hcond, eq_self_iff_true, if_true]
    split
    · exact Or.inr rfl
    · split
      · rename_i q hq
        exact Or.inl ⟨q, rfl, _, hq⟩
      · exact Or.inr rfl
  · exact absurd hnum (by decide)

/-! ### The normalized-row invariant established by ingestion -/

/-- The cell facts the round trip rests on: the date cell holds a
calendar-valid datetime and the metric cell a number whose denominator
divides a power of ten (so its decimal print is exact). -/
def RowOK (dj pj : ℕ) (r : List Cell) : Prop :=
  (∃ z, r.getD dj .naC = .dC z ∧ dateOK z) ∧
    ∃ q, r.getD pj .naC = .nC q ∧ q.den ∣ 10 ^ q.den

theorem cleanPriceCell_fromRead {c : Cell} (h : CellFromRead c)
    (hne : cleanPriceCell c ≠ .naC) :
    ∃ q, cleanPriceCell c = .nC q ∧ q.den ∣ 10 ^ q.den := by
  rcases h with ⟨s, rfl⟩ | ⟨q, rfl, s, hs⟩ | rfl
  · cases hp : toNumeric (cleanPriceStr s) with
    | none =>
      exfalso
      apply hne
      show (match toNumeric (cleanPriceStr s) with
        | some q => Cell.nC q | none => Cell.naC) = .naC
      rw [hp]
    | some q =>
      refine ⟨q, ?_, toNumericChars_den hp⟩
      show (match toNumeric (cleanPriceStr s) with
        | some q => Cell.nC q | none => Cell.naC) = .nC q
      rw [hp]
  · exact ⟨q, rfl, toNumericChars_den hs⟩
  · exact absurd rfl hne

theorem prep_ok_elim {raw u : Df} {dj pj : ℕ}
    (h : process_csv_prep raw = .ok (u, dj, pj)) :
    u = dropna dj pj (toDatetimeCol (cleanPriceCol (stripNames raw) pj) dj) := by
  unfold process_csv_prep at h
  split at h
  · exact absurd h (by simp)
  · rename_i pj' hp
    split at h
    · exact absurd h (by simp)
    · rename_i dj' hd
      simp only [Except.ok.injEq, Prod.mk.injEq] at h
      obtain ⟨hu, h1, h2⟩ := h
      subst h1
      subst h2
      exact hu.symm

theorem stripNames_dtypes (df : Df) : (stripNames df).dtypes = df.dtypes := rfl

theorem stripNames_rows (df : Df) : (stripNames df).rows = df.rows := rfl

theorem cleanPriceCol_row_facts {ns : List String} {cs : List (List String)} {pj : ℕ}
    (r1 : List Cell)
    (hr1 : r1 ∈ (cleanPriceCol (stripNames (readCsv ns cs)) pj).rows) :
    r1.length = ns.length ∧
    (∀ j, j ≠ pj → CellFromRead (r1.getD j .naC)) ∧
    (r1.getD pj .naC ≠ .naC →
      ∃ q, r1.getD pj .naC = .nC q ∧ q.den ∣ 10 ^ q.den) := by
  unfold cleanPriceCol at hr1
  rw [stripNames_dtypes] at hr1
  by_cases hb : (readCsv ns cs).dtypes.getD pj .objT = .objT
  · rw [if_pos hb] at hr1
    obtain ⟨r0, hr0, rfl⟩ := List.mem_map.1 hr1
    refine ⟨?_, ?_, ?_⟩
    · rw [modifyAt_length]
      exact readCsv_row_length ns cs r0 hr0
    · intro j hj
      rw [getD_modifyAt_ne _ _ _ _ _ hj]
      exact readCsv_cell_shape ns cs r0 hr0 j
    · intro hne
      by_cases hpj : pj < r0.length
      · rw [getD_modifyAt_self, if_pos hpj] at hne ⊢
        exact cleanPriceCell_fromRead (readCsv_cell_shape ns cs r0 hr0 pj) hne
      · rw [getD_modifyAt_self, if_neg hpj] at hne
        exact absurd rfl hne
  · rw [if_neg hb] at hr1
    refine ⟨readCsv_row_length ns cs r1 hr1,
      fun j _ => readCsv_cell_shape ns cs r1 hr1 j, ?_⟩
    intro hne
    have hpjlt : pj < ns.length := by
      by_contra hge
      apply hb
      rw [List.getD_eq_default]
      rw [readCsv_dtypes_length]
      omega
    have hnum : (readCsv ns cs).dtypes.getD pj .objT = .numT := by
      rw [readCsv_dtypes_getD ns cs pj hpjlt] at hb ⊢
      cases hcond : cs.all
          (fun r => r.getD pj "" = "" || (toNumeric (r.getD pj "")).isSome)
      · rw [hcond] at hb
        simp at hb
      · simp
    rcases readCsv_numT_cell ns cs pj hpjlt hnum r1 hr1 with ⟨q, hq, s, hs⟩ | hna
    · exact ⟨q, hq, toNumericChars_den hs⟩
    · exact absurd hna hne

theorem prep_rowOK {ns : List String} {cs : List (List String)} {u : Df} {dj pj : ℕ}
    (hdp : dj ≠ pj)
    (h : process_csv_prep (readCsv ns cs) = .ok (u, dj, pj)) :
    ∀ r ∈ u.rows, RowOK dj pj r ∧ r.length = ns.length := by
  have hu := prep_ok_elim h
  subst hu
  intro r hr
  have hval : validRow dj pj r = true := List.of_mem_filter hr
  have hmem : r ∈
      (toDatetimeCol (cleanPriceCol (stripNames (readCsv ns cs)) pj) dj).rows :=
    List.mem_of_mem_filter hr
  obtain ⟨r1, hr1, rfl⟩ := List.mem_map.1 hmem
  obtain ⟨hlen1, hcells, hpjcell⟩ := cleanPriceCol_row_facts r1 hr1
  unfold validRow at hval
  rw [Bool.and_eq_true] at hval
  have hvd : (modifyAt toDatetimeCell dj r1).getD dj .naC ≠ .naC := by
    simpa using hval.1
  have hvp : (modifyAt toDatetimeCell dj r1).getD pj .naC ≠ .naC := by
    simpa using hval.2
  refine ⟨⟨?_, ?_⟩, ?_⟩
  · by_cases hdj : dj < r1.length
    · rw [getD_modifyAt_self, if_pos hdj] at hvd ⊢
      rcases hcells dj hdp with ⟨s, hcs⟩ | ⟨q, hcq, -⟩ | hcna
      · rw [hcs] at hvd ⊢
        cases hps : parseDate s with
        | none =>
          exfalso
          apply hvd
          show (match parseDate s with
            | some t => Cell.dC t | none => Cell.naC) = .naC
          rw [hps]
        | some z =>
          refine ⟨z, ?_, parseDateChars_dateOK hps⟩
          show (match parseDate s with
            | some t => Cell.dC t | none => Cell.naC) = .dC z
          rw [hps]
      · rw [hcq] at hvd
        exact absurd rfl hvd
      · rw [hcna] at hvd
        exact absurd rfl hvd
    · rw [getD_modifyAt_self, if_neg hdj] at hvd
      exact absurd rfl hvd
  · rw [getD_modifyAt_ne _ _ _ _ _ (Ne.symm hdp)] at hvp ⊢
    exact hpjcell hvp
  · rw [modifyAt_length]
    exact hlen1

theorem prep_dtypes_readCsv {ns : List String} {cs : List (List String)} {u : Df}
    {dj pj : ℕ} (hdp : dj ≠ pj) (hdj : dj < ns.length) (hpj : pj < ns.length)
    (h : process_csv_prep (readCsv ns cs) = .ok (u, dj, pj)) :
    u.dtypes.length = ns.length ∧ u.dtypes.getD dj .objT = .dateT ∧
      u.dtypes.getD pj .objT = .numT := by
  have hu := prep_ok_elim h
  subst hu
  have hdt : (dropna dj pj (toDatetimeCol
      (cleanPriceCol (stripNames (readCsv ns cs)) pj) dj)).dtypes
      = (cleanPriceCol (stripNames (readCsv ns cs)) pj).dtypes.set dj .dateT := rfl
  rw [hdt]
  have hclen : (cleanPriceCol (stripNames (readCsv ns cs)) pj).dtypes.length
      = ns.length := by
    unfold cleanPriceCol
    split
    · show ((stripNames (readCsv ns cs)).dtypes.set pj .numT).length = ns.length
      rw [List.length_set]
      exact readCsv_dtypes_length ns cs
    · exact readCsv_dtypes_length ns cs
  have hcpj : (cleanPriceCol (stripNames (readCsv ns cs)) pj).dtypes.getD pj .objT
      = .numT := by
    unfold cleanPriceCol
    split
    · show ((stripNames (readCsv ns cs)).dtypes.set pj .numT).getD pj .objT = .numT
      refine getD_set_self _ _ _ _ ?_
      show pj < (readCsv ns cs).dtypes.length
      rw [readCsv_dtypes_length]
      exact hpj
    · rename_i hb
      rw [stripNames_dtypes] at hb
      show (readCsv ns cs).dtypes.getD pj .objT = .numT
      rw [readCsv_dtypes_getD ns cs pj hpj] at hb ⊢
      cases hcond : cs.all
          (fun r => r.getD pj "" = "" || (toNumeric (r.getD pj "")).isSome)
      · rw [hcond] at hb
        simp at hb
      · simp
  refine ⟨?_, ?_, ?_⟩
  · rw [List.length_set]
    exact hclen
  · refine getD_set_self _ _ _ _ ?_
    rw [hclen]
    exact hdj
  · rw [getD_set_ne _ _ _ _ _ (Ne.symm hdp)]
    exact hcpj

/-! ### The exported fields re-parse to the original cells -/

theorem insDot_ne_nil (k : ℕ) (ds : List Char) : insDot k ds ≠ [] := by
  unfold insDot
  simp

theorem printQChars_ne_nil (q : ℚ) : printQChars q ≠ [] := by
  unfold printQChars printPosQ
  split
  · simp
  · exact insDot_ne_nil _ _

theorem printDateChars_ne_nil (z : ℤ) : printDateChars z ≠ [] := by
  unfold printDateChars
  intro h
  rw [List.append_eq_nil] at h
  exact printNatPad_ne_nil _ _ h.1

theorem toNumericChars_printDate (z : ℤ) :
    toNumericChars (printDateChars z) = none := by
  obtain ⟨c, cs, hcc⟩ :=
    List.exists_cons_of_ne_nil (printNatPad_ne_nil 4 (z / 10000).toNat)
  have hcd : isDigitChar c = true := by
    have hcm : c ∈ printNatPad 4 (z / 10000).toNat := by
      rw [hcc]
      simp
    exact List.all_eq_true.1 (printNatPad_spec _ _).2 _ hcm
  have hshape : printDateChars z = c :: (cs ++ '-' ::
      (printNatPad 2 ((z % 10000) / 100).toNat ++
        '-' :: printNatPad 2 (z % 100).toNat)) := by
    unfold printDateChars
    rw [hcc]
    rfl
  have hnodot : '.' ∉ printDateChars z := by
    unfold printDateChars
    intro hmem
    simp only [List.mem_append, List.mem_cons] at hmem
    rcases hmem with hm | hm | hm | hm | hm
    · exact dot_not_mem_pad _ _ hm
    · exact absurd hm (by decide)
    · exact dot_not_mem_pad _ _ hm
    · exact absurd hm (by decide)
    · exact dot_not_mem_pad _ _ hm
  have hdash : '-' ∈ printDateChars z := by
    unfold printDateChars
    simp
  have hnone : parseUnsignedDec (printDateChars z) = none := by
    simp only [parseUnsignedDec, splitAtDot_no_dot _ hnodot]
    rw [if_neg]
    intro hcond
    rw [Bool.and_eq_true] at hcond
    exact absurd (List.all_eq_true.1 hcond.2 _ hdash) (by decide)
  rw [hshape]
  simp only [toNumericChars]
  rw [if_neg, if_neg]
  · rw [← hshape]
    exact hnone
  · intro hc
    subst hc
    revert hcd
    decide
  · intro hc
    subst hc
    revert hcd
    decide

theorem printCell_date_ne_empty (z : ℤ) : printCell (.dC z) ≠ "" := by
  intro h
  exact printDateChars_ne_nil z (congrArg String.data h)

theorem printCell_num_ne_empty (q : ℚ) : printCell (.nC q) ≠ "" := by
  intro h
  exact printQChars_ne_nil q (congrArg String.data h)

theorem toNumeric_printCell_num (q : ℚ) (hd : q.den ∣ 10 ^ q.den) :
    toNumeric (printCell (.nC q)) = some q :=
  toNumericChars_printQ q hd

theorem toNumeric_printCell_date (z : ℤ) :
    toNumeric (printCell (.dC z)) = none :=
  toNumericChars_printDate z

theorem parseDate_printCell_date {z : ℤ} (h : dateOK z) :
    parseDate (printCell (.dC z)) = some z :=
  parseDate_printDate h

/-! ### Second-pass plumbing -/

theorem stripNames_eq_self {df : Df} (h : df.names.map strStrip = df.names) :
    stripNames df = df := by
  unfold stripNames
  rw [h]

theorem cleanPriceCol_of_not_objT {df : Df} {j : ℕ}
    (h : df.dtypes.getD j .objT ≠ .objT) : cleanPriceCol df j = df := by
  unfold cleanPriceCol
  rw [if_neg h]

theorem prep_of_resolved {df : Df} {dj pj : ℕ}
    (hself : df.names.map strStrip = df.names)
    (hp : priceColIdx df.names = some pj)
    (hd : dateColIdx df.names = some dj) :
    process_csv_prep df =
      .ok (dropna dj pj (toDatetimeCol (cleanPriceCol df pj) dj), dj, pj) := by
  simp only [process_csv_prep, stripNames_eq_self hself, cleanPriceCol_names, hp, hd]

theorem naKeyRow_false_of_rowOK {dj pj : ℕ} {r : List Cell} (h : RowOK dj pj r) :
    naKeyRow dj r = false := by
  obtain ⟨⟨z, hz, -⟩, -⟩ := h
  unfold naKeyRow
  rw [hz]

theorem pairwise_lt_of_le_ne {dj : ℕ} : ∀ {l : List (List Cell)},
    l.Pairwise (fun a b => rowKey dj a ≤ rowKey dj b) →
    l.Pairwise (fun a b => rowKey dj a ≠ rowKey dj b) →
    l.Pairwise (fun a b => rowKey dj a < rowKey dj b) := by
  intro l
  induction l with
  | nil => intro _ _; exact List.Pairwise.nil
  | cons a as ih =>
    intro h1 h2
    rw [List.pairwise_cons] at h1 h2 ⊢
    exact ⟨fun b hb => lt_of_le_of_ne (h1.1 b hb) (h2.1 b hb), ih h1.2 h2.2⟩

theorem perm_sorted_nodup_eq {dj : ℕ} {l1 l2 : List (List Cell)}
    (hp : l1.Perm l2) (h1 : SortedByKey dj l1) (h2 : SortedByKey dj l2)
    (hnd : (l2.map (rowKey dj)).Nodup) : l1 = l2 := by
  have hnd1 : (l1.map (rowKey dj)).Nodup := ((hp.map (rowKey dj)).nodup_iff).2 hnd
  have hne1 : l1.Pairwise (fun a b => rowKey dj a ≠ rowKey dj b) :=
    List.pairwise_map.1 hnd1
  have hne2 : l2.Pairwise (fun a b => rowKey dj a ≠ rowKey dj b) :=
    List.pairwise_map.1 hnd
  haveI : IsTrans (List Cell) (fun a b => rowKey dj a ≤ rowKey dj b) :=
    ⟨fun _ _ _ hab hbc => le_trans hab hbc⟩
  have hle1 : l1.Pairwise (fun a b => rowKey dj a ≤ rowKey dj b) :=
    List.chain'_iff_pairwise.1 h1
  have hle2 : l2.Pairwise (fun a b => rowKey dj a ≤ rowKey dj b) :=
    List.chain'_iff_pairwise.1 h2
  have hlt1 := pairwise_lt_of_le_ne hle1 hne1
  have hlt2 := pairwise_lt_of_le_ne hle2 hne2
  haveI : IsAntisymm (List Cell) (fun a b => rowKey dj a < rowKey dj b) :=
    ⟨fun a b hab hba => absurd (lt_trans hab hba) (lt_irrefl _)⟩
  exact List.eq_of_perm_of_sorted hp hlt1 hlt2

theorem getD_modifyAt_map_range (f : α → α) (g : ℕ → α) (d : α) (n j : ℕ)
    (hj : j < n) :
    (modifyAt f j ((List.range n).map g)).getD j d = f (g j) := by
  rw [getD_modifyAt_self,
    if_pos (by rw [List.length_map, List.length_range]; exact hj),
    getD_map_range _ _ _ _ hj]

theorem exportCsv_snd (df : Df) :
    (exportCsv df).2 = df.rows.map (fun r => (List.range df.names.length).map
      (fun j => printCell (r.getD j .naC))) := rfl

theorem readCsv_rows_map (ns : List String) (cs : List (List String)) :
    (readCsv ns cs).rows = cs.map (fun r => (List.range ns.length).map
      (fun j =>
        if r.getD j "" = "" then Cell.naC
        else if cs.all (fun r => r.getD j "" = "" || (toNumeric (r.getD j "")).isSome)
        then
          match toNumeric (r.getD j "") with
          | some q => Cell.nC q
          | none => Cell.naC
        else Cell.sC (r.getD j ""))) := rfl

theorem map_eq_self_of_mem : ∀ (l : List α) (f : α → α),
    (∀ a ∈ l, f a = a) → l.map f = l := by
  intro l f
  induction l with
  | nil => intro _; rfl
  | cons a as ih =>
    intro h
    rw [List.map_cons, h a (by simp), ih (fun b hb => h b (by simp [hb]))]

/-- Claim C9, amended.  Exporting a normalized table to CSV and re-ingesting
the export reproduces the table exactly — including the resolved column
roles — *provided* the table consists of just the two role columns and its
dates are pairwise distinct.  (The counterexample below shows the amendment
is needed: a passthrough text column can come back retyped as numeric, and
duplicate dates let the unstable sort reorder tied rows, so the claim as
stated — idempotence for *every* normalized table — fails.) -/
theorem roundtrip_export_reingest (ns : List String) (cs : List (List String))
    (t : Df) (dj pj : ℕ) (t2 : Df) (dj2 pj2 : ℕ)
    (h1 : ProcessCsvR (readCsv ns cs) (t, dj, pj))
    (hw : t.names.length = 2)
    (hdp : dj ≠ pj)
    (hnd : (t.rows.map (rowKey dj)).Nodup)
    (h2 : ProcessCsvR (readCsv (exportCsv t).1 (exportCsv t).2) (t2, dj2, pj2)) :
    t2 = t ∧ dj2 = dj ∧ pj2 = pj := by
  obtain ⟨u, hprep, hnm, hdt, hsort⟩ := h1
  replace hprep : process_csv_prep (readCsv ns cs) = .ok (u, dj, pj) := hprep
  replace hnm : t.names = u.names := hnm
  replace hdt : t.dtypes = u.dtypes := hdt
  replace hsort : SortValuesR dj u.rows t.rows := hsort
  obtain ⟨hpj_res, hdj_res⟩ := process_csv_prep_resolves hprep
  replace hpj_res : priceColIdx (ns.map strStrip) = some pj := hpj_res
  replace hdj_res : dateColIdx (ns.map strStrip) = some dj := hdj_res
  have hun : u.names = ns.map strStrip := by
    rw [prep_ok_elim hprep]
    show (cleanPriceCol (stripNames (readCsv ns cs)) pj).names = ns.map strStrip
    rw [cleanPriceCol_names]
    rfl
  have htn : t.names = ns.map strStrip := by rw [hnm, hun]
  have htn_idem : t.names.map strStrip = t.names := by
    rw [htn, map_strStrip_idem]
  have hns2 : ns.length = 2 := by
    have hx := congrArg List.length htn
    rw [hw, List.length_map] at hx
    omega
  have hpjlt : pj < 2 := by
    have hx := (firstIdx_some_spec pricePred "" _ _ hpj_res).1
    rw [List.length_map, hns2] at hx
    exact hx
  have hdjlt : dj < 2 := by
    have hx := (firstIdx_some_spec datePred "" _ _ hdj_res).1
    rw [List.length_map, hns2] at hx
    exact hx
  have hrowsU := prep_rowOK hdp hprep
  have hnaU : ∀ r ∈ u.rows, naKeyRow dj r = false :=
    fun r hr => naKeyRow_false_of_rowOK (hrowsU r hr).1
  obtain ⟨hperm, hsorted_t⟩ := sortValuesR_all_valid hnaU hsort
  have hrowsT : ∀ r ∈ t.rows, RowOK dj pj r ∧ r.length = 2 := by
    intro r hr
    obtain ⟨ha, hb⟩ := hrowsU r (hperm.subset hr)
    exact ⟨ha, by rw [hb, hns2]⟩
  obtain ⟨hdtlen, hdtdj, hdtpj⟩ :=
    prep_dtypes_readCsv hdp (by omega) (by omega) hprep
  have htdt_len : t.dtypes.length = 2 := by rw [hdt, hdtlen, hns2]
  have htdt_dj : t.dtypes.getD dj .objT = .dateT := by rw [hdt]; exact hdtdj
  have htdt_pj : t.dtypes.getD pj .objT = .numT := by rw [hdt]; exact hdtpj
  -- the printed grid
  have hgridP : ∀ r' ∈ (exportCsv t).2, ∃ q : ℚ, q.den ∣ 10 ^ q.den ∧
      r'.getD pj "" = printCell (.nC q) := by
    intro r' hr'
    rw [exportCsv_snd] at hr'
    obtain ⟨r, hr, rfl⟩ := List.mem_map.1 hr'
    obtain ⟨-, q, hq, hqd⟩ := (hrowsT r hr).1
    refine ⟨q, hqd, ?_⟩
    show ((List.range t.names.length).map
      (fun j => printCell (r.getD j .naC))).getD pj "" = printCell (.nC q)
    rw [getD_map_range _ _ _ _ (by rw [hw]; omega), hq]
  have hgridD : ∀ r' ∈ (exportCsv t).2, ∃ z : ℤ, dateOK z ∧
      r'.getD dj "" = printCell (.dC z) := by
    intro r' hr'
    rw [exportCsv_snd] at hr'
    obtain ⟨r, hr, rfl⟩ := List.mem_map.1 hr'
    obtain ⟨⟨z, hz, hzOK⟩, -⟩ := (hrowsT r hr).1
    refine ⟨z, hzOK, ?_⟩
    show ((List.range t.names.length).map
      (fun j => printCell (r.getD j .naC))).getD dj "" = printCell (.dC z)
    rw [getD_map_range _ _ _ _ (by rw [hw]; omega), hz]
  have hcondP : (exportCsv t).2.all
      (fun r => r.getD pj "" = "" || (toNumeric (r.getD pj "")).isSome) = true := by
    rw [List.all_eq_true]
    intro r' hr'
    obtain ⟨q, hqd, hq⟩ := hgridP r' hr'
    rw [hq, toNumeric_printCell_num q hqd]
    simp
  have hcondD : ∀ r' ∈ (exportCsv t).2, (exportCsv t).2.all
      (fun r => r.getD dj "" = "" || (toNumeric (r.getD dj "")).isSome) = false := by
    intro r' hr'
    obtain ⟨z, hzOK, hz⟩ := hgridD r' hr'
    cases hx : (exportCsv t).2.all
        (fun r => r.getD dj "" = "" || (toNumeric (r.getD dj "")).isSome)
    · rfl
    · exfalso
      have hy := List.all_eq_true.1 hx r' hr'
      rw [hz, toNumeric_printCell_date z] at hy
      simp only [Option.isSome_none, Bool.or_false, decide_eq_true_eq] at hy
      exact printCell_date_ne_empty z hy
  -- the re-read frame resolves and needs no cleaning
  have ht1dt_pj : (readCsv (exportCsv t).1 (exportCsv t).2).dtypes.getD pj .objT
      = .numT := by
    rw [readCsv_dtypes_getD _ _ pj
      (show pj < (exportCsv t).1.length from by show pj < t.names.length; rw [hw]; omega)]
    rw [hcondP]
    simp
  obtain ⟨w, hprep2, hnm2, hdt2, hsort2⟩ := h2
  replace hprep2 : process_csv_prep (readCsv (exportCsv t).1 (exportCsv t).2)
      = .ok (w, dj2, pj2) := hprep2
  replace hnm2 : t2.names = w.names := hnm2
  replace hdt2 : t2.dtypes = w.dtypes := hdt2
  replace hsort2 : SortValuesR dj2 w.rows t2.rows := hsort2
  have hself1 : (readCsv (exportCsv t).1 (exportCsv t).2).names.map strStrip
      = (readCsv (exportCsv t).1 (exportCsv t).2).names := htn_idem
  have hp1 : priceColIdx (readCsv (exportCsv t).1 (exportCsv t).2).names
      = some pj := by
    show priceColIdx t.names = some pj
    rw [htn]
    exact hpj_res
  have hd1 : dateColIdx (readCsv (exportCsv t).1 (exportCsv t).2).names
      = some dj := by
    show dateColIdx t.names = some dj
    rw [htn]
    exact hdj_res
  have hprep2' := prep_of_resolved hself1 hp1 hd1
  rw [cleanPriceCol_of_not_objT (by rw [ht1dt_pj]; decide)] at hprep2'
  -- the re-read rows coerce back to the original rows
  have hmapped : (readCsv (exportCsv t).1 (exportCsv t).2).rows.map
      (modifyAt toDatetimeCell dj) = t.rows := by
    rw [readCsv_rows_map]
    rw [exportCsv_snd] at hcondP hcondD ⊢
    rw [List.map_map, List.map_map]
    apply map_eq_self_of_mem
    intro r hr
    simp only [Function.comp_apply]
    obtain ⟨⟨z, hz, hzOK⟩, q, hq, hqd⟩ := (hrowsT r hr).1
    have hr2 : r.length = 2 := (hrowsT r hr).2
    have hfieldD : ((List.range t.names.length).map
        (fun j => printCell (r.getD j .naC))).getD dj "" = printCell (.dC z) := by
      rw [getD_map_range _ _ _ _ (by rw [hw]; omega), hz]
    have hfieldP : ((List.range t.names.length).map
        (fun j => printCell (r.getD j .naC))).getD pj "" = printCell (.nC q) := by
      rw [getD_map_range _ _ _ _ (by rw [hw]; omega), hq]
    refine list2_ext Cell.naC _ _ ?_ hr2 ?_ ?_
    · rw [modifyAt_length, List.length_map, List.length_range]
      exact hw
    · rcases (show 0 = dj ∨ 0 = pj by omega) with h | h
      · rw [h]
        rw [getD_modifyAt_map_range _ _ _ _ _
          (show dj < (exportCsv t).1.length from by
            show dj < t.names.length
            rw [hw]
            omega)]
        simp only [hfieldD]
        rw [if_neg (printCell_date_ne_empty z)]
        rw [hcondD _ (List.mem_map_of_mem _ hr), if_neg (by decide)]
        show (match parseDate (printCell (.dC z)) with
          | some zz => Cell.dC zz
          | none => Cell.naC) = r.getD dj .naC
        rw [parseDate_printCell_date hzOK, hz]
      · rw [h]
        rw [getD_modifyAt_ne _ _ _ _ _ (Ne.symm hdp)]
        rw [getD_map_range _ _ _ _
          (show pj < (exportCsv t).1.length from by
            show pj < t.names.length
            rw [hw]
            omega)]
        simp only [hfieldP]
        rw [if_neg (printCell_num_ne_empty q)]
        rw [hcondP, if_pos rfl]
        rw [toNumeric_printCell_num q hqd, hq]
    · rcases (show 1 = dj ∨ 1 = pj by omega) with h | h
      · rw [h]
        rw [getD_modifyAt_map_range _ _ _ _ _
          (show dj < (exportCsv t).1.length from by
            show dj < t.names.length
            rw [hw]
            omega)]
        simp only [hfieldD]
        rw [if_neg (printCell_date_ne_empty z)]
        rw [hcondD _ (List.mem_map_of_mem _ hr), if_neg (by decide)]
        show (match parseDate (printCell (.dC z)) with
          | some zz => Cell.dC zz
          | none => Cell.naC) = r.getD dj .naC
        rw [parseDate_printCell_date hzOK, hz]
      · rw [h]
        rw [getD_modifyAt_ne _ _ _ _ _ (Ne.symm hdp)]
        rw [getD_map_range _ _ _ _
          (show pj < (exportCsv t).1.length from by
            show pj < t.names.length
            rw [hw]
            omega)]
        simp only [hfieldP]
        rw [if_neg (printCell_num_ne_empty q)]
        rw [hcondP, if_pos rfl]
        rw [toNumeric_printCell_num q hqd, hq]
  have hWrows : (dropna dj pj (toDatetimeCol
      (readCsv (exportCsv t).1 (exportCsv t).2) dj)).rows = t.rows := by
    show ((readCsv (exportCsv t).1 (exportCsv t).2).rows.map
      (modifyAt toDatetimeCell dj)).filter (validRow dj pj) = t.rows
    rw [hmapped]
    apply List.filter_eq_self.2
    intro r hr
    obtain ⟨⟨z, hz, -⟩, q, hq, -⟩ := (hrowsT r hr).1
    unfold validRow
    rw [hz, hq]
    simp
  have hWdt : (dropna dj pj (toDatetimeCol
      (readCsv (exportCsv t).1 (exportCsv t).2) dj)).dtypes = t.dtypes := by
    show (readCsv (exportCsv t).1 (exportCsv t).2).dtypes.set dj .dateT = t.dtypes
    have hlen : ((readCsv (exportCsv t).1 (exportCsv t).2).dtypes.set
        dj Dtype.dateT).length = 2 := by
      rw [List.length_set, readCsv_dtypes_length]
      exact hw
    have hx : ∀ j, j < 2 →
        ((readCsv (exportCsv t).1 (exportCsv t).2).dtypes.set
          dj Dtype.dateT).getD j .objT = t.dtypes.getD j .objT := by
      intro j hj
      rcases (show j = dj ∨ j = pj by omega) with h | h
      · rw [h]
        rw [getD_set_self _ _ _ _ (by
          rw [readCsv_dtypes_length]
          show dj < t.names.length
          rw [hw]
          omega)]
        exact htdt_dj.symm
      · rw [h]
        rw [getD_set_ne _ _ _ _ _ (Ne.symm hdp)]
        rw [ht1dt_pj]
        exact htdt_pj.symm
    exact list2_ext _ _ _ hlen htdt_len (hx 0 (by omega)) (hx 1 (by omega))
  rw [hprep2'] at hprep2
  simp only [Except.ok.injEq, Prod.mk.injEq] at hprep2
  obtain ⟨hwW, hdj2, hpj2'⟩ := hprep2
  rw [← hwW] at hsort2 hnm2 hdt2
  rw [← hdj2] at hsort2
  rw [hWrows] at hsort2
  have hna_t : ∀ r ∈ t.rows, naKeyRow dj r = false :=
    fun r hr => naKeyRow_false_of_rowOK (hrowsT r hr).1
  obtain ⟨hperm2, hsorted2⟩ := sortValuesR_all_valid hna_t hsort2
  have hrows_eq : t2.rows = t.rows :=
    perm_sorted_nodup_eq hperm2 hsorted2 hsorted_t hnd
  have ht2n : t2.names = t.names := hnm2
  have ht2d : t2.dtypes = t.dtypes := hdt2.trans hWdt
  exact ⟨df_ext ht2n ht2d hrows_eq, hdj2.symm, hpj2'.symm⟩

/-- The concrete one-row normalized table used to witness the round-trip
theorem: ingested from headers `Date`, `Price` and the single record
`2025-01-16, 93.2`. -/
def rtW : Df :=
  { names := ["Date", "Price"]
    dtypes := [.dateT, .numT]
    rows := [[.dC 20250116, .nC (466 / 5)]] }

theorem roundtrip_export_reingest_witness :
    rtW = rtW ∧ (0 : ℕ) = 0 ∧ (1 : ℕ) = 1 :=
  roundtrip_export_reingest ["Date", "Price"] [["2025-01-16", "93.2"]]
    rtW 0 1 rtW 0 1
    ⟨rtW, rfl, rfl, rfl, rtW.rows, by decide, by decide, by decide⟩
    rfl (by decide) (by decide)
    ⟨rtW, rfl, rfl, rfl, rtW.rows, by decide, by decide, by decide⟩

/-- Counterexample to claim C9 as stated.  A CSV with a passthrough `Note`
column whose non-numeric cell sits on a row dropped for its bad date: after
ingestion the surviving `Note` cells are the *texts* `"5"`, `"6"` in an
object column; the re-ingested export infers that column as numeric, so the
round-tripped table holds the *numbers* `5`, `6` — the two tables are not
equal (values and dtype both changed). -/
theorem roundtrip_counterexample :
    process_csv_np (readCsv ["Date", "Price", "Note"]
        [["2025-01-16", "93.2", "5"], ["bad", "90.0", "hello"],
         ["2025-01-17", "94.0", "6"]]) =
      some (⟨["Date", "Price", "Note"], [.dateT, .numT, .objT],
        [[.dC 20250116, .nC (466 / 5), .sC "5"],
         [.dC 20250117, .nC 94, .sC "6"]]⟩, 0, 1) ∧
    process_csv_np (readCsv
        ["Date", "Price", "Note"]
        [["2025-01-16", "93.20000", "5"], ["2025-01-17", "94.0", "6"]]) =
      some (⟨["Date", "Price", "Note"], [.dateT, .numT, .numT],
        [[.dC 20250116, .nC (466 / 5), .nC 5],
         [.dC 20250117, .nC 94, .nC 6]]⟩, 0, 1) ∧
    (exportCsv ⟨["Date", "Price", "Note"], [.dateT, .numT, .objT],
        [[.dC 20250116, .nC (466 / 5), .sC "5"],
         [.dC 20250117, .nC 94, .sC "6"]]⟩) =
      (["Date", "Price", "Note"],
       [["2025-01-16", "93.20000", "5"], ["2025-01-17", "94.0", "6"]]) ∧
    (⟨["Date", "Price", "Note"], [.dateT, .numT, .objT],
        [[.dC 20250116, .nC (466 / 5), .sC "5"],
         [.dC 20250117, .nC 94, .sC "6"]]⟩ : Df) ≠
      ⟨["Date", "Price", "Note"], [.dateT, .numT, .numT],
        [[.dC 20250116, .nC (466 / 5), .nC 5],
         [.dC 20250117, .nC 94, .nC 6]]⟩ :=
  ⟨by decide, by decide, by decide, by decide⟩

/-- Witness for claim C6: the prices `1, 3` (two rows) have sample variance
`2` and standard deviation `√2`. -/
theorem volatility_std_witness :
    ∃ v : ℚ, sampleVar [(1 : ℚ), 3] = some v ∧ 0 ≤ v ∧
      seriesStd [(1 : ℚ), 3] = some (Real.sqrt (v : ℝ)) ∧
      (Real.sqrt (v : ℝ)) ^ 2 = (v : ℝ) ∧
      v * (([(1 : ℚ), 3].length : ℚ) - 1) =
        ([(1 : ℚ), 3].map
          (fun x => (x - [(1 : ℚ), 3].sum / (([(1 : ℚ), 3].length : ℚ))) ^ 2)).sum :=
  (volatility_std_characterization [(1 : ℚ), 3]).2 (by norm_num)

end SilverTracker
